import Mathlib

/-
Verification of the expression-evaluator in src/main.c (a recursive-descent
calculator that parses and evaluates in one pass).

Embedding conventions:
* The C string is modelled as a List Char.  Reading expr[i] is modelled by
  charAt, which returns the NUL character for i ≥ length, mirroring the read
  of the terminating NUL at i = length (reads further out of bounds are
  undefined behaviour in C; the model totalizes them to NUL as well).
* The C int is modelled as unbounded Int (the spec declares overflow out of
  scope); C integer division truncates toward zero, which is Int.tdiv.
* The mutually recursive parser functions get_natural / evaluate_term /
  evaluate_expression are embedded with an explicit fuel parameter and
  structural recursion on the fuel, so that every definition is executable.
  The two while loops are embedded as the tail-recursive functions
  evaluate_term_loopF and evaluate_expression_loopF.  A result of none means
  the fuel ran out; it is proved below (fuel_adequate) that the fuel bound
  fuelFor is always sufficient, so the fuel-free wrappers get_natural,
  evaluate_term, evaluate_expression are total functions describing the C
  behaviour, and termination with fuel linear in the input length is a
  theorem rather than an assumption.
* exit(EXIT_FAILURE) on division by zero never returns to the caller; it is
  modelled by the value none (of the inner Option Int) which every caller
  propagates unchanged, so an aborted evaluation never produces an integer.
-/

/-- The NUL terminator of a C string. -/
def NUL : Char := Char.ofNat 0

/-- Model of expr[i] for a C string: the character at index i, and the
terminating NUL once i is at (or, totalizing undefined behaviour, past)
the end. -/
def charAt (s : List Char) (i : Nat) : Char := s.getD i NUL

/-- The division step of evaluate_term, C lines 97-99:
"if (operand == 0) exit(EXIT_FAILURE); result /= operand;".
none models the process abort; C division of ints truncates toward zero,
which is Int.tdiv. -/
def div_step (result operand : Int) : Option Int :=
  if operand = 0 then none else some (Int.tdiv result operand)

/-- The digit-accumulation loop of get_natural, C lines 62-69:
"while (isdigit(expr[*position])) { natural = natural * 10 +
expr[*position] - '0'; (*position)++; if (*position >= strlen(expr))
break; }" with an explicit fuel argument (none = fuel ran out, which
fuel_adequate below rules out for the bound used by the wrapper). -/
def read_digitsF : Nat → List Char → Int → Nat → Option (Int × Nat)
  | 0, _, _, _ => none
  | fuel+1, s, natural, pos =>
    if (charAt s pos).isDigit then
      let natural1 := natural * 10 + (((charAt s pos).toNat : Int) - (('0').toNat : Int))
      if s.length ≤ pos + 1 then some (natural1, pos + 1)
      else read_digitsF fuel s natural1 (pos + 1)
    else some (natural, pos)
termination_by structural fuel _ _ _ => fuel

mutual

/-- C function get_natural (main.c lines 44-72), fuelled.  Result:
none = out of fuel; some (none, p) = aborted inside a parenthesized
sub-expression (division by zero); some (some v, p) = returned value v
with the shared cursor left at p. -/
def get_naturalF : Nat → List Char → Nat → Option (Option Int × Nat)
  | 0, _, _ => none
  | fuel+1, s, pos =>
    let sign : Int := if charAt s pos = '-' then -1 else 1
    let pos1 : Nat := if charAt s pos = '-' then pos + 1 else pos
    if charAt s pos1 = '(' then
      match evaluate_expressionF fuel s (pos1 + 1) with
      | none => none
      | some (none, p) => some (none, p)
      | some (some v, p) => some (some (v * sign), p + 1)
    else
      match read_digitsF fuel s 0 pos1 with
      | none => none
      | some (v, p) => some (some (v * sign), p)
termination_by structural fuel _ _ => fuel

/-- The while loop of evaluate_term (main.c lines 86-101), with the running
result as an explicit accumulator. -/
def evaluate_term_loopF : Nat → List Char → Int → Nat → Option (Option Int × Nat)
  | 0, _, _, _ => none
  | fuel+1, s, result, pos =>
    if charAt s pos = '*' ∨ charAt s pos = '/' then
      let op := charAt s pos
      if op = '*' then
        match get_naturalF fuel s (pos + 1) with
        | none => none
        | some (none, p) => some (none, p)
        | some (some v, p) => evaluate_term_loopF fuel s (result * v) p
      else if op = '/' then
        match get_naturalF fuel s (pos + 1) with
        | none => none
        | some (none, p) => some (none, p)
        | some (some v, p) =>
          match div_step result v with
          | none => some (none, p)
          | some r => evaluate_term_loopF fuel s r p
      else evaluate_term_loopF fuel s result (pos + 1)
    else some (some result, pos)
termination_by structural fuel _ _ _ => fuel

/-- C function evaluate_term (main.c lines 82-103), fuelled. -/
def evaluate_termF : Nat → List Char → Nat → Option (Option Int × Nat)
  | 0, _, _ => none
  | fuel+1, s, pos =>
    match get_naturalF fuel s pos with
    | none => none
    | some (none, p) => some (none, p)
    | some (some v, p) => evaluate_term_loopF fuel s v p
termination_by structural fuel _ _ => fuel

/-- The while loop of evaluate_expression (main.c lines 117-129), with the
running result as an explicit accumulator. -/
def evaluate_expression_loopF : Nat → List Char → Int → Nat → Option (Option Int × Nat)
  | 0, _, _, _ => none
  | fuel+1, s, result, pos =>
    if charAt s pos = '+' ∨ charAt s pos = '-' then
      let op := charAt s pos
      if op = '+' then
        match evaluate_termF fuel s (pos + 1) with
        | none => none
        | some (none, p) => some (none, p)
        | some (some v, p) => evaluate_expression_loopF fuel s (result + v) p
      else if op = '-' then
        match evaluate_termF fuel s (pos + 1) with
        | none => none
        | some (none, p) => some (none, p)
        | some (some v, p) => evaluate_expression_loopF fuel s (result - v) p
      else evaluate_expression_loopF fuel s result (pos + 1)
    else some (some result, pos)
termination_by structural fuel _ _ _ => fuel

/-- C function evaluate_expression (main.c lines 113-131), fuelled. -/
def evaluate_expressionF : Nat → List Char → Nat → Option (Option Int × Nat)
  | 0, _, _ => none
  | fuel+1, s, pos =>
    match evaluate_termF fuel s pos with
    | none => none
    | some (none, p) => some (none, p)
    | some (some v, p) => evaluate_expression_loopF fuel s v p
termination_by structural fuel _ _ => fuel

end

/-- Fuel bound that is proved sufficient (fuel_adequate): linear in the
number of characters right of the cursor.  rank orders the parser levels:
1 get_natural, 2 term loop, 3 evaluate_term, 4 expression loop,
5 evaluate_expression. -/
def fuelFor (s : List Char) (pos rank : Nat) : Nat := 6 * (s.length + 1 - pos) + rank + 1

/-- Total version of the digit loop (the default value is dead code: the
fuel is sufficient by read_digitsF_adequate). -/
def read_digits (s : List Char) (natural : Int) (pos : Nat) : Int × Nat :=
  (read_digitsF (s.length + 1 - pos + 1) s natural pos).getD (natural, pos)

/-- Total version of get_natural: value (none = aborted) and final cursor. -/
def get_natural (s : List Char) (pos : Nat) : Option Int × Nat :=
  (get_naturalF (fuelFor s pos 1) s pos).getD (none, pos)

/-- Total version of the evaluate_term while loop. -/
def evaluate_term_loop (s : List Char) (result : Int) (pos : Nat) : Option Int × Nat :=
  (evaluate_term_loopF (fuelFor s pos 2) s result pos).getD (none, pos)

/-- Total version of evaluate_term. -/
def evaluate_term (s : List Char) (pos : Nat) : Option Int × Nat :=
  (evaluate_termF (fuelFor s pos 3) s pos).getD (none, pos)

/-- Total version of the evaluate_expression while loop. -/
def evaluate_expression_loop (s : List Char) (result : Int) (pos : Nat) : Option Int × Nat :=
  (evaluate_expression_loopF (fuelFor s pos 4) s result pos).getD (none, pos)

/-- Total version of evaluate_expression. -/
def evaluate_expression (s : List Char) (pos : Nat) : Option Int × Nat :=
  (evaluate_expressionF (fuelFor s pos 5) s pos).getD (none, pos)

/-- C function is_right_char (main.c lines 156-160). -/
def is_right_char (c : Char) : Bool :=
  c = '(' || c = ')' || c = '+' || c = '-' || c = '*' || c = '/' || c.isDigit

/-- The validator loop of calculate (main.c lines 144-151):
"for (unsigned int i = 0; i < strlen(expression) - 1; i++)".  Note the
loop bound strlen - 1: the final character is never checked.  (For the
empty string the C bound wraps around to UINT_MAX and the loop reads out
of bounds, undefined behaviour; the model uses the truncated Nat
subtraction, i.e. no check, which is the defined behaviour for every
non-empty input.)  The C loop exits on the first bad character; checking
them all returns the same verdict. -/
def valid_chars (s : List Char) : Bool :=
  (List.range (s.length - 1)).all (fun i => is_right_char (charAt s i))

/-- Outcome of one call to calculate: the diagnostic-plus-exit on a bad
character, the exit on division by zero, or a returned integer. -/
inductive CalcResult where
  | invalidChar : CalcResult
  | divByZero : CalcResult
  | ok : Int → CalcResult
deriving DecidableEq

/-- C function calculate (main.c lines 141-154): validator pass, then
evaluate_expression from cursor 0. -/
def calculate (expression : List Char) : CalcResult :=
  if valid_chars expression then
    match (evaluate_expression expression 0).1 with
    | some v => CalcResult.ok v
    | none => CalcResult.divByZero
  else CalcResult.invalidChar

/- ### Basic facts about charAt -/

theorem charAt_of_length_le (s : List Char) (i : Nat) (h : s.length ≤ i) :
    charAt s i = NUL := by
  unfold charAt
  exact List.getD_eq_default s NUL h

theorem lt_of_charAt_eq {s : List Char} {i : Nat} {c : Char} (h : charAt s i = c)
    (hc : c ≠ NUL) : i < s.length := by
  by_contra hlt
  push_neg at hlt
  rw [charAt_of_length_le s i hlt] at h
  exact hc h.symm

theorem lt_of_charAt_isDigit {s : List Char} {i : Nat}
    (h : (charAt s i).isDigit = true) : i < s.length := by
  by_contra hlt
  push_neg at hlt
  rw [charAt_of_length_le s i hlt] at h
  exact absurd h (by decide)

theorem charAt_append (pre l : List Char) (i : Nat) :
    charAt (pre ++ l) (pre.length + i) = charAt l i := by
  induction pre with
  | nil => simp [charAt]
  | cons c cs ih =>
      simpa [charAt, List.length_cons, Nat.succ_add] using ih

theorem charAt_append_zero (pre l : List Char) :
    charAt (pre ++ l) pre.length = charAt l 0 := by
  simpa using charAt_append pre l 0

theorem charAt_cons_zero (c : Char) (l : List Char) : charAt (c :: l) 0 = c := rfl

/- ### The cursor never moves backwards (fuelled versions) -/

theorem read_digitsF_pos_le :
    ∀ (fuel : Nat) (s : List Char) (a : Int) (pos : Nat) (v : Int) (p : Nat),
      read_digitsF fuel s a pos = some (v, p) → pos ≤ p := by
  intro fuel
  induction fuel with
  | zero => intro s a pos v p h; simp [read_digitsF] at h
  | succ f ih =>
      intro s a pos v p h
      simp only [read_digitsF] at h
      by_cases hd : (charAt s pos).isDigit
      · simp only [if_pos hd] at h
        by_cases hl : s.length ≤ pos + 1
        · rw [if_pos hl] at h
          simp only [Option.some.injEq, Prod.mk.injEq] at h
          omega
        · rw [if_neg hl] at h
          have := ih s _ (pos + 1) v p h
          omega
      · simp only [if_neg hd] at h
        simp only [Option.some.injEq, Prod.mk.injEq] at h
        omega

theorem parserF_pos_le :
    ∀ (fuel : Nat) (s : List Char) (pos : Nat),
      (∀ r p, get_naturalF fuel s pos = some (r, p) → pos ≤ p) ∧
      (∀ a r p, evaluate_term_loopF fuel s a pos = some (r, p) → pos ≤ p) ∧
      (∀ r p, evaluate_termF fuel s pos = some (r, p) → pos ≤ p) ∧
      (∀ a r p, evaluate_expression_loopF fuel s a pos = some (r, p) → pos ≤ p) ∧
      (∀ r p, evaluate_expressionF fuel s pos = some (r, p) → pos ≤ p) := by
  intro fuel
  induction fuel with
  | zero =>
      intro s pos
      refine ⟨?_, ?_, ?_, ?_, ?_⟩
      · intro r p h; simp [get_naturalF] at h
      · intro a r p h; simp [evaluate_term_loopF] at h
      · intro r p h; simp [evaluate_termF] at h
      · intro a r p h; simp [evaluate_expression_loopF] at h
      · intro r p h; simp [evaluate_expressionF] at h
  | succ f ih =>
      intro s pos
      refine ⟨?_, ?_, ?_, ?_, ?_⟩
      · -- get_naturalF
        intro r p h
        simp only [get_naturalF] at h
        by_cases hm : charAt s pos = '-'
        · simp only [if_pos hm] at h
          by_cases hp : charAt s (pos + 1) = '('
          · rw [if_pos hp] at h
            cases hE : evaluate_expressionF f s (pos + 1 + 1) with
            | none => rw [hE] at h; simp at h
            | some x =>
                obtain ⟨vv, pp⟩ := x
                have hle := (ih s (pos + 1 + 1)).2.2.2.2 vv pp hE
                rw [hE] at h
                cases vv <;> simp only [Option.some.injEq, Prod.mk.injEq] at h <;> omega
          · rw [if_neg hp] at h
            cases hD : read_digitsF f s 0 (pos + 1) with
            | none => rw [hD] at h; simp at h
            | some x =>
                obtain ⟨vv, pp⟩ := x
                have hle := read_digitsF_pos_le f s 0 (pos + 1) vv pp hD
                rw [hD] at h
                simp only [Option.some.injEq, Prod.mk.injEq] at h
                omega
        · simp only [if_neg hm] at h
          by_cases hp : charAt s pos = '('
          · rw [if_pos hp] at h
            cases hE : evaluate_expressionF f s (pos + 1) with
            | none => rw [hE] at h; simp at h
            | some x =>
                obtain ⟨vv, pp⟩ := x
                have hle := (ih s (pos + 1)).2.2.2.2 vv pp hE
                rw [hE] at h
                cases vv <;> simp only [Option.some.injEq, Prod.mk.injEq] at h <;> omega
          · rw [if_neg hp] at h
            cases hD : read_digitsF f s 0 pos with
            | none => rw [hD] at h; simp at h
            | some x =>
                obtain ⟨vv, pp⟩ := x
                have hle := read_digitsF_pos_le f s 0 pos vv pp hD
                rw [hD] at h
                simp only [Option.some.injEq, Prod.mk.injEq] at h
                omega
      · -- evaluate_term_loopF
        intro a r p h
        simp only [evaluate_term_loopF] at h
        by_cases hop : charAt s pos = '*' ∨ charAt s pos = '/'
        · rw [if_pos hop] at h
          by_cases h1 : charAt s pos = '*'
          · rw [if_pos h1] at h
            cases hN : get_naturalF f s (pos + 1) with
            | none => rw [hN] at h; simp at h
            | some x =>
                obtain ⟨vv, pp⟩ := x
                have hle := (ih s (pos + 1)).1 vv pp hN
                rw [hN] at h
                cases vv with
                | none => simp only [Option.some.injEq, Prod.mk.injEq] at h; omega
                | some v =>
                    have hle2 := (ih s pp).2.1 (a * v) r p h
                    omega
          · rw [if_neg h1] at h
            by_cases h2 : charAt s pos = '/'
            · rw [if_pos h2] at h
              cases hN : get_naturalF f s (pos + 1) with
              | none => rw [hN] at h; simp at h
              | some x =>
                  obtain ⟨vv, pp⟩ := x
                  have hle := (ih s (pos + 1)).1 vv pp hN
                  rw [hN] at h
                  cases vv with
                  | none => simp only [Option.some.injEq, Prod.mk.injEq] at h; omega
                  | some v =>
                      cases hdv : div_step a v with
                      | none =>
                          simp only [hdv, Option.some.injEq, Prod.mk.injEq] at h
                          omega
                      | some r2 =>
                          simp only [hdv] at h
                          have hle2 := (ih s pp).2.1 r2 r p h
                          omega
            · rcases hop with h' | h' <;> contradiction
        · rw [if_neg hop] at h
          simp only [Option.some.injEq, Prod.mk.injEq] at h
          omega
      · -- evaluate_termF
        intro r p h
        simp only [evaluate_termF] at h
        cases hN : get_naturalF f s pos with
        | none => rw [hN] at h; simp at h
        | some x =>
            obtain ⟨vv, pp⟩ := x
            have hle := (ih s pos).1 vv pp hN
            rw [hN] at h
            cases vv with
            | none => simp only [Option.some.injEq, Prod.mk.injEq] at h; omega
            | some v =>
                have hle2 := (ih s pp).2.1 v r p h
                omega
      · -- evaluate_expression_loopF
        intro a r p h
        simp only [evaluate_expression_loopF] at h
        by_cases hop : charAt s pos = '+' ∨ charAt s pos = '-'
        · rw [if_pos hop] at h
          by_cases h1 : charAt s pos = '+'
          · rw [if_pos h1] at h
            cases hN : evaluate_termF f s (pos + 1) with
            | none => rw [hN] at h; simp at h
            | some x =>
                obtain ⟨vv, pp⟩ := x
                have hle := (ih s (pos + 1)).2.2.1 vv pp hN
                rw [hN] at h
                cases vv with
                | none => simp only [Option.some.injEq, Prod.mk.injEq] at h; omega
                | some v =>
                    have hle2 := (ih s pp).2.2.2.1 (a + v) r p h
                    omega
          · rw [if_neg h1] at h
            by_cases h2 : charAt s pos = '-'
            · rw [if_pos h2] at h
              cases hN : evaluate_termF f s (pos + 1) with
              | none => rw [hN] at h; simp at h
              | some x =>
                  obtain ⟨vv, pp⟩ := x
                  have hle := (ih s (pos + 1)).2.2.1 vv pp hN
                  rw [hN] at h
                  cases vv with
                  | none => simp only [Option.some.injEq, Prod.mk.injEq] at h; omega
                  | some v =>
                      have hle2 := (ih s pp).2.2.2.1 (a - v) r p h
                      omega
            · rcases hop with h' | h' <;> contradiction
        · rw [if_neg hop] at h
          simp only [Option.some.injEq, Prod.mk.injEq] at h
          omega
      · -- evaluate_expressionF
        intro r p h
        simp only [evaluate_expressionF] at h
        cases hN : evaluate_termF f s pos with
        | none => rw [hN] at h; simp at h
        | some x =>
            obtain ⟨vv, pp⟩ := x
            have hle := (ih s pos).2.2.1 vv pp hN
            rw [hN] at h
            cases vv with
            | none => simp only [Option.some.injEq, Prod.mk.injEq] at h; omega
            | some v =>
                have hle2 := (ih s pp).2.2.2.1 v r p h
                omega

/- ### More fuel never changes a completed result -/

theorem read_digitsF_fuel_mono :
    ∀ (f1 f2 : Nat), f1 ≤ f2 → ∀ (s : List Char) (a : Int) (pos : Nat) (r : Int × Nat),
      read_digitsF f1 s a pos = some r → read_digitsF f2 s a pos = some r := by
  intro f1
  induction f1 with
  | zero => intro f2 hle s a pos r h; simp [read_digitsF] at h
  | succ f ih =>
      intro f2 hle s a pos r h
      obtain ⟨f2p, rfl⟩ : ∃ k, f2 = k + 1 := ⟨f2 - 1, by omega⟩
      simp only [read_digitsF] at h ⊢
      by_cases hd : (charAt s pos).isDigit
      · simp only [if_pos hd] at h ⊢
        by_cases hl : s.length ≤ pos + 1
        · rw [if_pos hl] at h ⊢; exact h
        · rw [if_neg hl] at h ⊢
          exact ih f2p (by omega) s _ (pos + 1) r h
      · simp only [if_neg hd] at h ⊢; exact h

theorem parserF_fuel_mono :
    ∀ (f1 f2 : Nat), f1 ≤ f2 → ∀ (s : List Char) (pos : Nat),
      (∀ r, get_naturalF f1 s pos = some r → get_naturalF f2 s pos = some r) ∧
      (∀ a r, evaluate_term_loopF f1 s a pos = some r → evaluate_term_loopF f2 s a pos = some r) ∧
      (∀ r, evaluate_termF f1 s pos = some r → evaluate_termF f2 s pos = some r) ∧
      (∀ a r, evaluate_expression_loopF f1 s a pos = some r → evaluate_expression_loopF f2 s a pos = some r) ∧
      (∀ r, evaluate_expressionF f1 s pos = some r → evaluate_expressionF f2 s pos = some r) := by
  intro f1
  induction f1 with
  | zero =>
      intro f2 hle s pos
      refine ⟨?_, ?_, ?_, ?_, ?_⟩
      · intro r h; simp [get_naturalF] at h
      · intro a r h; simp [evaluate_term_loopF] at h
      · intro r h; simp [evaluate_termF] at h
      · intro a r h; simp [evaluate_expression_loopF] at h
      · intro r h; simp [evaluate_expressionF] at h
  | succ f ih =>
      intro f2 hle s pos
      obtain ⟨f2p, rfl⟩ : ∃ k, f2 = k + 1 := ⟨f2 - 1, by omega⟩
      have hff : f ≤ f2p := by omega
      refine ⟨?_, ?_, ?_, ?_, ?_⟩
      · -- get_naturalF
        intro r h
        simp only [get_naturalF] at h ⊢
        by_cases hm : charAt s pos = '-'
        · simp only [if_pos hm] at h ⊢
          by_cases hp : charAt s (pos + 1) = '('
          · rw [if_pos hp] at h ⊢
            cases hE : evaluate_expressionF f s (pos + 1 + 1) with
            | none => rw [hE] at h; simp at h
            | some x =>
                rw [hE] at h
                rw [(ih f2p hff s (pos + 1 + 1)).2.2.2.2 x hE]
                exact h
          · rw [if_neg hp] at h ⊢
            cases hD : read_digitsF f s 0 (pos + 1) with
            | none => rw [hD] at h; simp at h
            | some x =>
                rw [hD] at h
                rw [read_digitsF_fuel_mono f f2p hff s 0 (pos + 1) x hD]
                exact h
        · simp only [if_neg hm] at h ⊢
          by_cases hp : charAt s pos = '('
          · rw [if_pos hp] at h ⊢
            cases hE : evaluate_expressionF f s (pos + 1) with
            | none => rw [hE] at h; simp at h
            | some x =>
                rw [hE] at h
                rw [(ih f2p hff s (pos + 1)).2.2.2.2 x hE]
                exact h
          · rw [if_neg hp] at h ⊢
            cases hD : read_digitsF f s 0 pos with
            | none => rw [hD] at h; simp at h
            | some x =>
                rw [hD] at h
                rw [read_digitsF_fuel_mono f f2p hff s 0 pos x hD]
                exact h
      · -- evaluate_term_loopF
        intro a r h
        simp only [evaluate_term_loopF] at h ⊢
        by_cases hop : charAt s pos = '*' ∨ charAt s pos = '/'
        · rw [if_pos hop] at h ⊢
          by_cases h1 : charAt s pos = '*'
          · rw [if_pos h1] at h ⊢
            cases hN : get_naturalF f s (pos + 1) with
            | none => rw [hN] at h; simp at h
            | some x =>
                obtain ⟨vv, pp⟩ := x
                rw [hN] at h
                rw [(ih f2p hff s (pos + 1)).1 (vv, pp) hN]
                cases vv with
                | none => exact h
                | some v =>
                    simp only at h ⊢
                    exact (ih f2p hff s pp).2.1 (a * v) r h
          · rw [if_neg h1] at h ⊢
            by_cases h2 : charAt s pos = '/'
            · rw [if_pos h2] at h ⊢
              cases hN : get_naturalF f s (pos + 1) with
              | none => rw [hN] at h; simp at h
              | some x =>
                  obtain ⟨vv, pp⟩ := x
                  rw [hN] at h
                  rw [(ih f2p hff s (pos + 1)).1 (vv, pp) hN]
                  cases vv with
                  | none => exact h
                  | some v =>
                      cases hdv : div_step a v with
                      | none => simp only [hdv] at h ⊢; exact h
                      | some r2 =>
                          simp only [hdv] at h ⊢
                          exact (ih f2p hff s pp).2.1 r2 r h
            · rcases hop with h' | h' <;> contradiction
        · rw [if_neg hop] at h ⊢
          exact h
      · -- evaluate_termF
        intro r h
        simp only [evaluate_termF] at h ⊢
        cases hN : get_naturalF f s pos with
        | none => rw [hN] at h; simp at h
        | some x =>
            obtain ⟨vv, pp⟩ := x
            rw [hN] at h
            rw [(ih f2p hff s pos).1 (vv, pp) hN]
            cases vv with
            | none => exact h
            | some v =>
                simp only at h ⊢
                exact (ih f2p hff s pp).2.1 v r h
      · -- evaluate_expression_loopF
        intro a r h
        simp only [evaluate_expression_loopF] at h ⊢
        by_cases hop : charAt s pos = '+' ∨ charAt s pos = '-'
        · rw [if_pos hop] at h ⊢
          by_cases h1 : charAt s pos = '+'
          · rw [if_pos h1] at h ⊢
            cases hN : evaluate_termF f s (pos + 1) with
            | none => rw [hN] at h; simp at h
            | some x =>
                obtain ⟨vv, pp⟩ := x
                rw [hN] at h
                rw [(ih f2p hff s (pos + 1)).2.2.1 (vv, pp) hN]
                cases vv with
                | none => exact h
                | some v =>
                    simp only at h ⊢
                    exact (ih f2p hff s pp).2.2.2.1 (a + v) r h
          · rw [if_neg h1] at h ⊢
            by_cases h2 : charAt s pos = '-'
            · rw [if_pos h2] at h ⊢
              cases hN : evaluate_termF f s (pos + 1) with
              | none => rw [hN] at h; simp at h
              | some x =>
                  obtain ⟨vv, pp⟩ := x
                  rw [hN] at h
                  rw [(ih f2p hff s (pos + 1)).2.2.1 (vv, pp) hN]
                  cases vv with
                  | none => exact h
                  | some v =>
                      simp only at h ⊢
                      exact (ih f2p hff s pp).2.2.2.1 (a - v) r h
            · rcases hop with h' | h' <;> contradiction
        · rw [if_neg hop] at h ⊢
          exact h
      · -- evaluate_expressionF
        intro r h
        simp only [evaluate_expressionF] at h ⊢
        cases hN : evaluate_termF f s pos with
        | none => rw [hN] at h; simp at h
        | some x =>
            obtain ⟨vv, pp⟩ := x
            rw [hN] at h
            rw [(ih f2p hff s pos).2.2.1 (vv, pp) hN]
            cases vv with
            | none => exact h
            | some v =>
                simp only at h ⊢
                exact (ih f2p hff s pp).2.2.2.1 v r h

/- ### The fuel bound fuelFor is sufficient: the C recursion terminates -/

theorem read_digitsF_adequate :
    ∀ (fuel : Nat) (s : List Char) (a : Int) (pos : Nat),
      s.length + 1 - pos + 1 ≤ fuel → (read_digitsF fuel s a pos).isSome := by
  intro fuel
  induction fuel with
  | zero => intro s a pos h; omega
  | succ f ih =>
      intro s a pos hb
      simp only [read_digitsF]
      by_cases hd : (charAt s pos).isDigit
      · simp only [if_pos hd]
        by_cases hl : s.length ≤ pos + 1
        · rw [if_pos hl]; simp
        · rw [if_neg hl]
          exact ih s _ (pos + 1) (by omega)
      · simp only [if_neg hd]; simp

theorem parserF_adequate :
    ∀ (fuel : Nat) (s : List Char) (pos : Nat),
      (fuelFor s pos 1 ≤ fuel → (get_naturalF fuel s pos).isSome) ∧
      (∀ a, fuelFor s pos 2 ≤ fuel → (evaluate_term_loopF fuel s a pos).isSome) ∧
      (fuelFor s pos 3 ≤ fuel → (evaluate_termF fuel s pos).isSome) ∧
      (∀ a, fuelFor s pos 4 ≤ fuel → (evaluate_expression_loopF fuel s a pos).isSome) ∧
      (fuelFor s pos 5 ≤ fuel → (evaluate_expressionF fuel s pos).isSome) := by
  intro fuel
  induction fuel with
  | zero =>
      intro s pos
      refine ⟨?_, ?_, ?_, ?_, ?_⟩
      · intro h; simp only [fuelFor] at h; omega
      · intro a h; simp only [fuelFor] at h; omega
      · intro h; simp only [fuelFor] at h; omega
      · intro a h; simp only [fuelFor] at h; omega
      · intro h; simp only [fuelFor] at h; omega
  | succ f ih =>
      intro s pos
      refine ⟨?_, ?_, ?_, ?_, ?_⟩
      · -- get_naturalF
        intro hb
        simp only [fuelFor] at hb
        simp only [get_naturalF]
        by_cases hm : charAt s pos = '-'
        · simp only [if_pos hm]
          by_cases hp : charAt s (pos + 1) = '('
          · rw [if_pos hp]
            have hlt : pos + 1 < s.length := lt_of_charAt_eq hp (by decide)
            have hE := (ih s (pos + 1 + 1)).2.2.2.2 (by simp only [fuelFor]; omega)
            cases hEe : evaluate_expressionF f s (pos + 1 + 1) with
            | none => rw [hEe] at hE; simp at hE
            | some x =>
                obtain ⟨vv, pp⟩ := x
                cases vv <;> simp
          · rw [if_neg hp]
            have hD := read_digitsF_adequate f s 0 (pos + 1) (by omega)
            cases hDe : read_digitsF f s 0 (pos + 1) with
            | none => rw [hDe] at hD; simp at hD
            | some x => simp
        · simp only [if_neg hm]
          by_cases hp : charAt s pos = '('
          · rw [if_pos hp]
            have hlt : pos < s.length := lt_of_charAt_eq hp (by decide)
            have hE := (ih s (pos + 1)).2.2.2.2 (by simp only [fuelFor]; omega)
            cases hEe : evaluate_expressionF f s (pos + 1) with
            | none => rw [hEe] at hE; simp at hE
            | some x =>
                obtain ⟨vv, pp⟩ := x
                cases vv <;> simp
          · rw [if_neg hp]
            have hD := read_digitsF_adequate f s 0 pos (by omega)
            cases hDe : read_digitsF f s 0 pos with
            | none => rw [hDe] at hD; simp at hD
            | some x => simp
      · -- evaluate_term_loopF
        intro a hb
        simp only [fuelFor] at hb
        simp only [evaluate_term_loopF]
        by_cases hop : charAt s pos = '*' ∨ charAt s pos = '/'
        · rw [if_pos hop]
          have hlt : pos < s.length := by
            rcases hop with h' | h' <;> exact lt_of_charAt_eq h' (by decide)
          have hN := (ih s (pos + 1)).1 (by simp only [fuelFor]; omega)
          cases hNe : get_naturalF f s (pos + 1) with
          | none => rw [hNe] at hN; simp at hN
          | some x =>
              obtain ⟨vv, pp⟩ := x
              have hpp : pos + 1 ≤ pp := (parserF_pos_le f s (pos + 1)).1 vv pp hNe
              by_cases h1 : charAt s pos = '*'
              · rw [if_pos h1]
                cases vv with
                | none => simp
                | some v =>
                    simp only
                    exact (ih s pp).2.1 (a * v) (by simp only [fuelFor]; omega)
              · rw [if_neg h1]
                by_cases h2 : charAt s pos = '/'
                · rw [if_pos h2]
                  cases vv with
                  | none => simp
                  | some v =>
                      cases hdv : div_step a v with
                      | none => simp [hdv]
                      | some r2 =>
                          simp only [hdv]
                          exact (ih s pp).2.1 r2 (by simp only [fuelFor]; omega)
                · rcases hop with h' | h' <;> contradiction
        · rw [if_neg hop]; simp
      · -- evaluate_termF
        intro hb
        simp only [fuelFor] at hb
        simp only [evaluate_termF]
        have hN := (ih s pos).1 (by simp only [fuelFor]; omega)
        cases hNe : get_naturalF f s pos with
        | none => rw [hNe] at hN; simp at hN
        | some x =>
            obtain ⟨vv, pp⟩ := x
            have hpp : pos ≤ pp := (parserF_pos_le f s pos).1 vv pp hNe
            cases vv with
            | none => simp
            | some v =>
                simp only
                exact (ih s pp).2.1 v (by simp only [fuelFor]; omega)
      · -- evaluate_expression_loopF
        intro a hb
        simp only [fuelFor] at hb
        simp only [evaluate_expression_loopF]
        by_cases hop : charAt s pos = '+' ∨ charAt s pos = '-'
        · rw [if_pos hop]
          have hlt : pos < s.length := by
            rcases hop with h' | h' <;> exact lt_of_charAt_eq h' (by decide)
          have hN := (ih s (pos + 1)).2.2.1 (by simp only [fuelFor]; omega)
          cases hNe : evaluate_termF f s (pos + 1) with
          | none => rw [hNe] at hN; simp at hN
          | some x =>
              obtain ⟨vv, pp⟩ := x
              have hpp : pos + 1 ≤ pp := (parserF_pos_le f s (pos + 1)).2.2.1 vv pp hNe
              by_cases h1 : charAt s pos = '+'
              · rw [if_pos h1]
                cases vv with
                | none => simp
                | some v =>
                    simp only
                    exact (ih s pp).2.2.2.1 (a + v) (by simp only [fuelFor]; omega)
              · rw [if_neg h1]
                by_cases h2 : charAt s pos = '-'
                · rw [if_pos h2]
                  cases vv with
                  | none => simp
                  | some v =>
                      simp only
                      exact (ih s pp).2.2.2.1 (a - v) (by simp only [fuelFor]; omega)
                · rcases hop with h' | h' <;> contradiction
        · rw [if_neg hop]; simp
      · -- evaluate_expressionF
        intro hb
        simp only [fuelFor] at hb
        simp only [evaluate_expressionF]
        have hN := (ih s pos).2.2.1 (by simp only [fuelFor]; omega)
        cases hNe : evaluate_termF f s pos with
        | none => rw [hNe] at hN; simp at hN
        | some x =>
            obtain ⟨vv, pp⟩ := x
            have hpp : pos ≤ pp := (parserF_pos_le f s pos).2.2.1 vv pp hNe
            cases vv with
            | none => simp
            | some v =>
                simp only
                exact (ih s pp).2.2.2.1 v (by simp only [fuelFor]; omega)

/- ### Bridges: any sufficient fuel computes the total functions -/

theorem read_digitsF_eq_total (fuel : Nat) (s : List Char) (a : Int) (pos : Nat)
    (h : s.length + 1 - pos + 1 ≤ fuel) :
    read_digitsF fuel s a pos = some (read_digits s a pos) := by
  have h1 := read_digitsF_adequate (s.length + 1 - pos + 1) s a pos (le_refl _)
  obtain ⟨r, hr⟩ := Option.isSome_iff_exists.mp h1
  have h2 := read_digitsF_fuel_mono _ fuel h s a pos r hr
  unfold read_digits
  rw [hr, h2]
  rfl

theorem get_naturalF_eq_total (fuel : Nat) (s : List Char) (pos : Nat)
    (h : fuelFor s pos 1 ≤ fuel) :
    get_naturalF fuel s pos = some (get_natural s pos) := by
  have h1 := (parserF_adequate (fuelFor s pos 1) s pos).1 (le_refl _)
  obtain ⟨r, hr⟩ := Option.isSome_iff_exists.mp h1
  have h2 := (parserF_fuel_mono _ fuel h s pos).1 r hr
  unfold get_natural
  rw [hr, h2]
  rfl

theorem evaluate_term_loopF_eq_total (fuel : Nat) (s : List Char) (a : Int) (pos : Nat)
    (h : fuelFor s pos 2 ≤ fuel) :
    evaluate_term_loopF fuel s a pos = some (evaluate_term_loop s a pos) := by
  have h1 := (parserF_adequate (fuelFor s pos 2) s pos).2.1 a (le_refl _)
  obtain ⟨r, hr⟩ := Option.isSome_iff_exists.mp h1
  have h2 := (parserF_fuel_mono _ fuel h s pos).2.1 a r hr
  unfold evaluate_term_loop
  rw [hr, h2]
  rfl

theorem evaluate_termF_eq_total (fuel : Nat) (s : List Char) (pos : Nat)
    (h : fuelFor s pos 3 ≤ fuel) :
    evaluate_termF fuel s pos = some (evaluate_term s pos) := by
  have h1 := (parserF_adequate (fuelFor s pos 3) s pos).2.2.1 (le_refl _)
  obtain ⟨r, hr⟩ := Option.isSome_iff_exists.mp h1
  have h2 := (parserF_fuel_mono _ fuel h s pos).2.2.1 r hr
  unfold evaluate_term
  rw [hr, h2]
  rfl

theorem evaluate_expression_loopF_eq_total (fuel : Nat) (s : List Char) (a : Int) (pos : Nat)
    (h : fuelFor s pos 4 ≤ fuel) :
    evaluate_expression_loopF fuel s a pos = some (evaluate_expression_loop s a pos) := by
  have h1 := (parserF_adequate (fuelFor s pos 4) s pos).2.2.2.1 a (le_refl _)
  obtain ⟨r, hr⟩ := Option.isSome_iff_exists.mp h1
  have h2 := (parserF_fuel_mono _ fuel h s pos).2.2.2.1 a r hr
  unfold evaluate_expression_loop
  rw [hr, h2]
  rfl

theorem evaluate_expressionF_eq_total (fuel : Nat) (s : List Char) (pos : Nat)
    (h : fuelFor s pos 5 ≤ fuel) :
    evaluate_expressionF fuel s pos = some (evaluate_expression s pos) := by
  have h1 := (parserF_adequate (fuelFor s pos 5) s pos).2.2.2.2 (le_refl _)
  obtain ⟨r, hr⟩ := Option.isSome_iff_exists.mp h1
  have h2 := (parserF_fuel_mono _ fuel h s pos).2.2.2.2 r hr
  unfold evaluate_expression
  rw [hr, h2]
  rfl

/- ### The total functions never move the cursor backwards -/

theorem read_digits_pos_le (s : List Char) (a : Int) (pos : Nat) :
    pos ≤ (read_digits s a pos).2 := by
  unfold read_digits
  cases h : read_digitsF (s.length + 1 - pos + 1) s a pos with
  | none => simp
  | some r =>
      obtain ⟨v, p⟩ := r
      simpa using read_digitsF_pos_le _ s a pos v p h

theorem get_natural_pos_le (s : List Char) (pos : Nat) :
    pos ≤ (get_natural s pos).2 := by
  unfold get_natural
  cases h : get_naturalF (fuelFor s pos 1) s pos with
  | none => simp
  | some r =>
      obtain ⟨v, p⟩ := r
      simpa using (parserF_pos_le _ s pos).1 v p h

theorem evaluate_term_loop_pos_le (s : List Char) (a : Int) (pos : Nat) :
    pos ≤ (evaluate_term_loop s a pos).2 := by
  unfold evaluate_term_loop
  cases h : evaluate_term_loopF (fuelFor s pos 2) s a pos with
  | none => simp
  | some r =>
      obtain ⟨v, p⟩ := r
      simpa using (parserF_pos_le _ s pos).2.1 a v p h

theorem evaluate_term_pos_le (s : List Char) (pos : Nat) :
    pos ≤ (evaluate_term s pos).2 := by
  unfold evaluate_term
  cases h : evaluate_termF (fuelFor s pos 3) s pos with
  | none => simp
  | some r =>
      obtain ⟨v, p⟩ := r
      simpa using (parserF_pos_le _ s pos).2.2.1 v p h

theorem evaluate_expression_loop_pos_le (s : List Char) (a : Int) (pos : Nat) :
    pos ≤ (evaluate_expression_loop s a pos).2 := by
  unfold evaluate_expression_loop
  cases h : evaluate_expression_loopF (fuelFor s pos 4) s a pos with
  | none => simp
  | some r =>
      obtain ⟨v, p⟩ := r
      simpa using (parserF_pos_le _ s pos).2.2.2.1 a v p h

theorem evaluate_expression_pos_le (s : List Char) (pos : Nat) :
    pos ≤ (evaluate_expression s pos).2 := by
  unfold evaluate_expression
  cases h : evaluate_expressionF (fuelFor s pos 5) s pos with
  | none => simp
  | some r =>
      obtain ⟨v, p⟩ := r
      simpa using (parserF_pos_le _ s pos).2.2.2.2 v p h

/- ### One-step equations of the total functions, mirroring the C control flow -/

theorem read_digits_eq (s : List Char) (a : Int) (pos : Nat) :
    read_digits s a pos =
      if (charAt s pos).isDigit then
        if s.length ≤ pos + 1 then
          (a * 10 + (((charAt s pos).toNat : Int) - (('0').toNat : Int)), pos + 1)
        else
          read_digits s (a * 10 + (((charAt s pos).toNat : Int) - (('0').toNat : Int))) (pos + 1)
      else (a, pos) := by
  change (read_digitsF (s.length + 1 - pos + 1) s a pos).getD (a, pos) = _
  simp only [read_digitsF]
  by_cases hd : (charAt s pos).isDigit
  · simp only [if_pos hd]
    by_cases hl : s.length ≤ pos + 1
    · simp only [if_pos hl]
      rfl
    · simp only [if_neg hl]
      rw [read_digitsF_eq_total _ s _ (pos + 1) (by omega)]
      rfl
  · simp only [if_neg hd]
    rfl

theorem get_natural_eq (s : List Char) (pos : Nat) :
    get_natural s pos =
      (let sign : Int := if charAt s pos = '-' then -1 else 1
       let pos1 : Nat := if charAt s pos = '-' then pos + 1 else pos
       if charAt s pos1 = '(' then
         match evaluate_expression s (pos1 + 1) with
         | (none, p) => (none, p)
         | (some v, p) => (some (v * sign), p + 1)
       else
         match read_digits s 0 pos1 with
         | (v, p) => (some (v * sign), p)) := by
  change (get_naturalF (fuelFor s pos 1) s pos).getD (none, pos) = _
  simp only [fuelFor]
  simp only [get_naturalF]
  by_cases hm : charAt s pos = '-'
  · simp only [if_pos hm]
    by_cases hp : charAt s (pos + 1) = '('
    · simp only [if_pos hp]
      have hlt : pos + 1 < s.length := lt_of_charAt_eq hp (by decide)
      rw [evaluate_expressionF_eq_total _ s (pos + 1 + 1) (by simp only [fuelFor]; omega)]
      rcases hE : evaluate_expression s (pos + 1 + 1) with ⟨_ | v, p⟩ <;> simp
    · simp only [if_neg hp]
      rw [read_digitsF_eq_total _ s 0 (pos + 1) (by omega)]
      rcases hD : read_digits s 0 (pos + 1) with ⟨v, p⟩
      simp
  · simp only [if_neg hm]
    by_cases hp : charAt s pos = '('
    · simp only [if_pos hp]
      have hlt : pos < s.length := lt_of_charAt_eq hp (by decide)
      rw [evaluate_expressionF_eq_total _ s (pos + 1) (by simp only [fuelFor]; omega)]
      rcases hE : evaluate_expression s (pos + 1) with ⟨_ | v, p⟩ <;> simp
    · simp only [if_neg hp]
      rw [read_digitsF_eq_total _ s 0 pos (by omega)]
      rcases hD : read_digits s 0 pos with ⟨v, p⟩
      simp

theorem evaluate_term_loop_eq (s : List Char) (a : Int) (pos : Nat) :
    evaluate_term_loop s a pos =
      if charAt s pos = '*' ∨ charAt s pos = '/' then
        if charAt s pos = '*' then
          match get_natural s (pos + 1) with
          | (none, p) => (none, p)
          | (some v, p) => evaluate_term_loop s (a * v) p
        else if charAt s pos = '/' then
          match get_natural s (pos + 1) with
          | (none, p) => (none, p)
          | (some v, p) =>
            match div_step a v with
            | none => (none, p)
            | some r => evaluate_term_loop s r p
        else evaluate_term_loop s a (pos + 1)
      else (some a, pos) := by
  change (evaluate_term_loopF (fuelFor s pos 2) s a pos).getD (none, pos) = _
  simp only [fuelFor]
  rw [evaluate_term_loopF]
  by_cases hop : charAt s pos = '*' ∨ charAt s pos = '/'
  · simp only [if_pos hop]
    have hlt : pos < s.length := by
      rcases hop with h' | h' <;> exact lt_of_charAt_eq h' (by decide)
    by_cases h1 : charAt s pos = '*'
    · simp only [if_pos h1]
      rw [get_naturalF_eq_total _ s (pos + 1) (by simp only [fuelFor]; omega)]
      rcases hN : get_natural s (pos + 1) with ⟨_ | v, p⟩
      · rfl
      · have hp2 : pos + 1 ≤ p := by
          have h0 := get_natural_pos_le s (pos + 1)
          rw [hN] at h0
          exact h0
        show (evaluate_term_loopF (6 * (s.length + 1 - pos) + 2) s (a * v) p).getD (none, pos) =
          evaluate_term_loop s (a * v) p
        rw [evaluate_term_loopF_eq_total _ s (a * v) p (by simp only [fuelFor]; omega)]
        rfl
    · simp only [if_neg h1]
      by_cases h2 : charAt s pos = '/'
      · simp only [if_pos h2]
        rw [get_naturalF_eq_total _ s (pos + 1) (by simp only [fuelFor]; omega)]
        rcases hN : get_natural s (pos + 1) with ⟨_ | v, p⟩
        · rfl
        · have hp2 : pos + 1 ≤ p := by
            have h0 := get_natural_pos_le s (pos + 1)
            rw [hN] at h0
            exact h0
          show (match div_step a v with
                | none => some ((none : Option Int), p)
                | some r => evaluate_term_loopF (6 * (s.length + 1 - pos) + 2) s r p).getD
              (none, pos) =
            (match div_step a v with
             | none => ((none : Option Int), p)
             | some r => evaluate_term_loop s r p)
          cases hdv : div_step a v with
          | none => rfl
          | some r2 =>
              show (evaluate_term_loopF (6 * (s.length + 1 - pos) + 2) s r2 p).getD (none, pos) =
                evaluate_term_loop s r2 p
              rw [evaluate_term_loopF_eq_total _ s r2 p (by simp only [fuelFor]; omega)]
              rfl
      · rcases hop with h' | h' <;> contradiction
  · simp only [if_neg hop]
    rfl

theorem evaluate_term_eq (s : List Char) (pos : Nat) :
    evaluate_term s pos =
      match get_natural s pos with
      | (none, p) => (none, p)
      | (some v, p) => evaluate_term_loop s v p := by
  change (evaluate_termF (fuelFor s pos 3) s pos).getD (none, pos) = _
  simp only [fuelFor]
  rw [evaluate_termF]
  rw [get_naturalF_eq_total _ s pos (by simp only [fuelFor]; omega)]
  rcases hN : get_natural s pos with ⟨_ | v, p⟩
  · rfl
  · have hp2 : pos ≤ p := by
      have h0 := get_natural_pos_le s pos
      rw [hN] at h0
      exact h0
    show (evaluate_term_loopF (6 * (s.length + 1 - pos) + 3) s v p).getD (none, pos) =
      evaluate_term_loop s v p
    rw [evaluate_term_loopF_eq_total _ s v p (by simp only [fuelFor]; omega)]
    rfl

theorem evaluate_expression_loop_eq (s : List Char) (a : Int) (pos : Nat) :
    evaluate_expression_loop s a pos =
      if charAt s pos = '+' ∨ charAt s pos = '-' then
        if charAt s pos = '+' then
          match evaluate_term s (pos + 1) with
          | (none, p) => (none, p)
          | (some v, p) => evaluate_expression_loop s (a + v) p
        else if charAt s pos = '-' then
          match evaluate_term s (pos + 1) with
          | (none, p) => (none, p)
          | (some v, p) => evaluate_expression_loop s (a - v) p
        else evaluate_expression_loop s a (pos + 1)
      else (some a, pos) := by
  change (evaluate_expression_loopF (fuelFor s pos 4) s a pos).getD (none, pos) = _
  simp only [fuelFor]
  rw [evaluate_expression_loopF]
  by_cases hop : charAt s pos = '+' ∨ charAt s pos = '-'
  · simp only [if_pos hop]
    have hlt : pos < s.length := by
      rcases hop with h' | h' <;> exact lt_of_charAt_eq h' (by decide)
    by_cases h1 : charAt s pos = '+'
    · simp only [if_pos h1]
      rw [evaluate_termF_eq_total _ s (pos + 1) (by simp only [fuelFor]; omega)]
      rcases hN : evaluate_term s (pos + 1) with ⟨_ | v, p⟩
      · rfl
      · have hp2 : pos + 1 ≤ p := by
          have h0 := evaluate_term_pos_le s (pos + 1)
          rw [hN] at h0
          exact h0
        show (evaluate_expression_loopF (6 * (s.length + 1 - pos) + 4) s (a + v) p).getD (none, pos) =
          evaluate_expression_loop s (a + v) p
        rw [evaluate_expression_loopF_eq_total _ s (a + v) p (by simp only [fuelFor]; omega)]
        rfl
    · simp only [if_neg h1]
      by_cases h2 : charAt s pos = '-'
      · simp only [if_pos h2]
        rw [evaluate_termF_eq_total _ s (pos + 1) (by simp only [fuelFor]; omega)]
        rcases hN : evaluate_term s (pos + 1) with ⟨_ | v, p⟩
        · rfl
        · have hp2 : pos + 1 ≤ p := by
            have h0 := evaluate_term_pos_le s (pos + 1)
            rw [hN] at h0
            exact h0
          show (evaluate_expression_loopF (6 * (s.length + 1 - pos) + 4) s (a - v) p).getD (none, pos) =
            evaluate_expression_loop s (a - v) p
          rw [evaluate_expression_loopF_eq_total _ s (a - v) p (by simp only [fuelFor]; omega)]
          rfl
      · rcases hop with h' | h' <;> contradiction
  · simp only [if_neg hop]
    rfl

theorem evaluate_expression_eq (s : List Char) (pos : Nat) :
    evaluate_expression s pos =
      match evaluate_term s pos with
      | (none, p) => (none, p)
      | (some v, p) => evaluate_expression_loop s v p := by
  change (evaluate_expressionF (fuelFor s pos 5) s pos).getD (none, pos) = _
  simp only [fuelFor]
  rw [evaluate_expressionF]
  rw [evaluate_termF_eq_total _ s pos (by simp only [fuelFor]; omega)]
  rcases hN : evaluate_term s pos with ⟨_ | v, p⟩
  · rfl
  · have hp2 : pos ≤ p := by
      have h0 := evaluate_term_pos_le s pos
      rw [hN] at h0
      exact h0
    show (evaluate_expression_loopF (6 * (s.length + 1 - pos) + 5) s v p).getD (none, pos) =
      evaluate_expression_loop s v p
    rw [evaluate_expression_loopF_eq_total _ s v p (by simp only [fuelFor]; omega)]
    rfl

/- ### Reference grammar and reference semantics (from the spec)

The spec (sections 4.2-4.4 and 8) describes the well-formed inputs by the
grammar  expression = term ((plus | minus) term)*,
         term = factor ((times | divide) factor)*,
         factor = optional minus, then a digit run or a parenthesized
         expression,
and the expected value by standard left-to-right, precedence-respecting
arithmetic with truncating (toward zero) division, division by zero
stopping evaluation.  The types below are the syntax of that grammar; a
well-formed expression string is the rendering of such a tree.  evalE is
the reference semantics, written from the words of the spec, against which
the C parser is compared. -/

mutual
inductive Factor where
  | num (sign : Bool) (ds : List Char) : Factor
  | paren (sign : Bool) (e : Exprn) : Factor
inductive TermTail where
  | tnil : TermTail
  | tcons (isMul : Bool) (f : Factor) (rest : TermTail) : TermTail
inductive Termn where
  | mk (head : Factor) (tail : TermTail) : Termn
inductive ExprTail where
  | enil : ExprTail
  | econs (isAdd : Bool) (t : Termn) (rest : ExprTail) : ExprTail
inductive Exprn where
  | mk (head : Termn) (tail : ExprTail) : Exprn
end

mutual
/-- The expression string denoted by a factor: optional leading minus, then
its digits or its parenthesized sub-expression. -/
def renderF : Factor → List Char
  | .num sign ds => (if sign then ['-'] else []) ++ ds
  | .paren sign e => (if sign then ['-'] else []) ++ '(' :: (renderE e ++ [')'])
def renderTT : TermTail → List Char
  | .tnil => []
  | .tcons isMul f rest => (if isMul then '*' else '/') :: (renderF f ++ renderTT rest)
def renderT : Termn → List Char
  | .mk h t => renderF h ++ renderTT t
def renderET : ExprTail → List Char
  | .enil => []
  | .econs isAdd t rest => (if isAdd then '+' else '-') :: (renderT t ++ renderET rest)
def renderE : Exprn → List Char
  | .mk h t => renderT h ++ renderET t
end

/-- One step of base-10 accumulation, as in the spec: value = value * 10 + digit. -/
def digitStep (a : Int) (c : Char) : Int := a * 10 + ((c.toNat : Int) - (('0').toNat : Int))

/-- Base-10 value of a digit run, accumulated left to right. -/
def digitVal (a : Int) (ds : List Char) : Int := ds.foldl digitStep a

mutual
/-- Reference semantics of a factor, from the spec. -/
def evalF : Factor → Option Int
  | .num sign ds => some (digitVal 0 ds * (if sign then -1 else 1))
  | .paren sign e =>
      match evalE e with
      | none => none
      | some v => some (v * (if sign then -1 else 1))
/-- Reference semantics of a term tail, left to right on an accumulator;
division truncates toward zero and a zero divisor stops evaluation. -/
def evalTT : Int → TermTail → Option Int
  | acc, .tnil => some acc
  | acc, .tcons isMul f rest =>
      match evalF f with
      | none => none
      | some b =>
          if isMul then evalTT (acc * b) rest
          else if b = 0 then none else evalTT (Int.tdiv acc b) rest
def evalT : Termn → Option Int
  | .mk h t =>
      match evalF h with
      | none => none
      | some v => evalTT v t
def evalET : Int → ExprTail → Option Int
  | acc, .enil => some acc
  | acc, .econs isAdd t rest =>
      match evalT t with
      | none => none
      | some b => if isAdd then evalET (acc + b) rest else evalET (acc - b) rest
def evalE : Exprn → Option Int
  | .mk h t =>
      match evalT h with
      | none => none
      | some v => evalET v t
end

mutual
/-- Well-formedness: every digit run is nonempty and made of digits, as the
claims require (every factor starts with a digit, a minus or a left
parenthesis). -/
def wfF : Factor → Bool
  | .num _ ds => !ds.isEmpty && ds.all Char.isDigit
  | .paren _ e => wfE e
def wfTT : TermTail → Bool
  | .tnil => true
  | .tcons _ f rest => wfF f && wfTT rest
def wfT : Termn → Bool
  | .mk h t => wfF h && wfTT t
def wfET : ExprTail → Bool
  | .enil => true
  | .econs _ t rest => wfT t && wfET rest
def wfE : Exprn → Bool
  | .mk h t => wfT h && wfET t
end

/-- What may follow a factor without being consumed by it: anything but a
digit. -/
def stops_factor (post : List Char) : Prop := (charAt post 0).isDigit = false

/-- What may follow a term without being consumed: no digit and no
multiplicative operator. -/
def stops_term (post : List Char) : Prop :=
  stops_factor post ∧ charAt post 0 ≠ '*' ∧ charAt post 0 ≠ '/'

/-- What may follow an expression without being consumed: no digit and no
operator. -/
def stops_expr (post : List Char) : Prop :=
  stops_term post ∧ charAt post 0 ≠ '+' ∧ charAt post 0 ≠ '-'

theorem isDigit_not_special {c : Char} (h : c.isDigit = true) :
    c ≠ '(' ∧ c ≠ ')' ∧ c ≠ '+' ∧ c ≠ '-' ∧ c ≠ '*' ∧ c ≠ '/' := by
  refine ⟨?_, ?_, ?_, ?_, ?_, ?_⟩ <;> (intro heq; rw [heq] at h; exact absurd h (by decide))

/-- Running the digit loop over a rendered digit run consumes exactly the
run and accumulates its base-10 value. -/
theorem read_digits_render :
    ∀ (ds pre post : List Char) (a : Int),
      (∀ c ∈ ds, c.isDigit = true) → (charAt post 0).isDigit = false →
      read_digits (pre ++ ds ++ post) a pre.length =
        (digitVal a ds, pre.length + ds.length) := by
  intro ds
  induction ds with
  | nil =>
      intro pre post a hall hstop
      rw [read_digits_eq]
      rw [List.append_nil]
      rw [charAt_append_zero pre post]
      rw [if_neg (by rw [hstop]; exact Bool.false_ne_true)]
      simp [digitVal]
  | cons c ds ih =>
      intro pre post a hall hstop
      have hcd : c.isDigit = true := hall c (by simp)
      rw [read_digits_eq]
      rw [List.append_assoc, List.cons_append]
      have hc : charAt (pre ++ c :: (ds ++ post)) pre.length = c := by
        rw [charAt_append_zero]
        rfl
      rw [hc, if_pos hcd]
      by_cases hl : (pre ++ c :: (ds ++ post)).length ≤ pre.length + 1
      · have hz : ds.length = 0 ∧ post.length = 0 := by
          simp only [List.length_append, List.length_cons] at hl
          omega
        have hds : ds = [] := List.length_eq_zero.mp hz.1
        have hpost : post = [] := List.length_eq_zero.mp hz.2
        subst hds
        subst hpost
        rw [if_pos hl]
        simp [digitVal, digitStep]
      · rw [if_neg hl]
        have hre : pre ++ c :: (ds ++ post) = ((pre ++ [c]) ++ ds) ++ post := by simp
        rw [hre]
        have hlen : pre.length + 1 = (pre ++ [c]).length := by simp
        rw [hlen]
        rw [ih (pre ++ [c]) post (a * 10 + (((c.toNat : Int)) - (('0').toNat : Int)))
          (fun d hd => hall d (by simp [hd])) hstop]
        simp only [digitVal, List.foldl_cons, digitStep, Prod.mk.injEq]
        refine ⟨trivial, ?_⟩
        simp only [List.length_append, List.length_cons, List.length_nil]
        omega

/- ### The C parser computes the reference semantics on rendered trees -/

theorem charAt_append_cons (pre : List Char) (c : Char) (l post : List Char) :
    charAt (pre ++ (c :: l) ++ post) pre.length = c := by
  rw [List.append_assoc, List.cons_append]
  rw [charAt_append_zero]
  rfl

/-- Correctness statement for the factor parser on a rendered factor. -/
def FactOK (f : Factor) : Prop :=
  ∀ pre post : List Char, wfF f = true → stops_factor post →
    (get_natural (pre ++ renderF f ++ post) pre.length).1 = evalF f ∧
    (evalF f ≠ none →
      (get_natural (pre ++ renderF f ++ post) pre.length).2 = pre.length + (renderF f).length)

/-- Correctness statement for the term loop on a rendered term tail. -/
def TermTailOK (t : TermTail) : Prop :=
  ∀ (pre post : List Char) (acc : Int), wfTT t = true → stops_term post →
    (evaluate_term_loop (pre ++ renderTT t ++ post) acc pre.length).1 = evalTT acc t ∧
    (evalTT acc t ≠ none →
      (evaluate_term_loop (pre ++ renderTT t ++ post) acc pre.length).2
        = pre.length + (renderTT t).length)

/-- Correctness statement for the term parser on a rendered term. -/
def TermOK (t : Termn) : Prop :=
  ∀ pre post : List Char, wfT t = true → stops_term post →
    (evaluate_term (pre ++ renderT t ++ post) pre.length).1 = evalT t ∧
    (evalT t ≠ none →
      (evaluate_term (pre ++ renderT t ++ post) pre.length).2 = pre.length + (renderT t).length)

/-- Correctness statement for the expression loop on a rendered tail. -/
def ExprTailOK (t : ExprTail) : Prop :=
  ∀ (pre post : List Char) (acc : Int), wfET t = true → stops_expr post →
    (evaluate_expression_loop (pre ++ renderET t ++ post) acc pre.length).1 = evalET acc t ∧
    (evalET acc t ≠ none →
      (evaluate_expression_loop (pre ++ renderET t ++ post) acc pre.length).2
        = pre.length + (renderET t).length)

/-- Correctness statement for the expression parser on a rendered expression. -/
def ExprOK (e : Exprn) : Prop :=
  ∀ pre post : List Char, wfE e = true → stops_expr post →
    (evaluate_expression (pre ++ renderE e ++ post) pre.length).1 = evalE e ∧
    (evalE e ≠ none →
      (evaluate_expression (pre ++ renderE e ++ post) pre.length).2
        = pre.length + (renderE e).length)

theorem stops_factor_renderTT (rest : TermTail) (post : List Char)
    (h : stops_factor post) : stops_factor (renderTT rest ++ post) := by
  cases rest with
  | tnil => simpa [renderTT] using h
  | tcons b f r =>
      simp only [renderTT, List.cons_append]
      unfold stops_factor
      cases b <;> (rw [charAt_cons_zero]; decide)

theorem stops_term_renderET (rest : ExprTail) (post : List Char)
    (h : stops_term post) : stops_term (renderET rest ++ post) := by
  cases rest with
  | enil => simpa [renderET] using h
  | econs b t r =>
      simp only [renderET, List.cons_append]
      unfold stops_term stops_factor
      cases b <;> (refine ⟨?_, ?_, ?_⟩ <;> (rw [charAt_cons_zero]; decide))

theorem factOK_num (sign : Bool) (ds : List Char) : FactOK (.num sign ds) := by
  intro pre post hwf hstop
  simp only [wfF, Bool.and_eq_true] at hwf
  obtain ⟨hne, hall0⟩ := hwf
  have hall := List.all_eq_true.mp hall0
  cases ds with
  | nil => simp [List.isEmpty] at hne
  | cons c ds' =>
      have hcd : c.isDigit = true := hall c (by simp)
      obtain ⟨hc1, hc2, hc3, hc4, hc5, hc6⟩ := isDigit_not_special hcd
      unfold stops_factor at hstop
      cases sign with
      | false =>
          have hrf : renderF (Factor.num false (c :: ds')) = c :: ds' := by simp [renderF]
          rw [hrf]
          have hc : charAt (pre ++ (c :: ds') ++ post) pre.length = c :=
            charAt_append_cons pre c ds' post
          have hnm : ¬(charAt (pre ++ (c :: ds') ++ post) pre.length = '-') := by
            rw [hc]; exact hc4
          have hnp : ¬(charAt (pre ++ (c :: ds') ++ post) pre.length = '(') := by
            rw [hc]; exact hc1
          rw [get_natural_eq]
          simp only [if_neg hnm, if_neg hnp]
          rw [read_digits_render (c :: ds') pre post 0 hall hstop]
          simp [evalF]
      | true =>
          have hrf : renderF (Factor.num true (c :: ds')) = '-' :: (c :: ds') := by
            simp [renderF]
          rw [hrf]
          have hcm : charAt (pre ++ ('-' :: (c :: ds')) ++ post) pre.length = '-' :=
            charAt_append_cons pre '-' (c :: ds') post
          rw [get_natural_eq]
          simp only [if_pos hcm]
          have hS : pre ++ ('-' :: (c :: ds')) ++ post = (pre ++ ['-']) ++ (c :: ds') ++ post := by
            simp
          have hc : charAt (pre ++ ('-' :: (c :: ds')) ++ post) (pre.length + 1) = c := by
            rw [hS, show pre.length + 1 = (pre ++ ['-']).length from by simp]
            exact charAt_append_cons (pre ++ ['-']) c ds' post
          have hnp : ¬(charAt (pre ++ ('-' :: (c :: ds')) ++ post) (pre.length + 1) = '(') := by
            rw [hc]; exact hc1
          simp only [if_neg hnp]
          have hrd := read_digits_render (c :: ds')
            (pre ++ ['-']) post 0 hall hstop
          rw [← hS, show (pre ++ ['-']).length = pre.length + 1 from by simp] at hrd
          rw [hrd]
          constructor
          · simp [evalF]
          · intro _
            simp only [List.length_cons]
            omega

theorem factOK_paren (sign : Bool) (e : Exprn) (ih : ExprOK e) : FactOK (.paren sign e) := by
  intro pre post hwf hstop
  simp only [wfF] at hwf
  have hstopE : stops_expr (')' :: post) := by
    unfold stops_expr stops_term stops_factor
    refine ⟨⟨?_, ?_, ?_⟩, ?_, ?_⟩ <;> (rw [charAt_cons_zero]; decide)
  cases sign with
  | false =>
      have hrf : renderF (Factor.paren false e) = '(' :: (renderE e ++ [')']) := by
        simp [renderF]
      rw [hrf]
      have hcp : charAt (pre ++ ('(' :: (renderE e ++ [')'])) ++ post) pre.length = '(' :=
        charAt_append_cons pre '(' (renderE e ++ [')']) post
      have hnm : ¬(charAt (pre ++ ('(' :: (renderE e ++ [')'])) ++ post) pre.length = '-') := by
        rw [hcp]; decide
      rw [get_natural_eq]
      simp only [if_neg hnm, if_pos hcp]
      have hS : pre ++ ('(' :: (renderE e ++ [')'])) ++ post
          = (pre ++ ['(']) ++ renderE e ++ (')' :: post) := by simp
      have hrec := ih (pre ++ ['(']) (')' :: post) hwf hstopE
      rw [← hS, show (pre ++ ['(']).length = pre.length + 1 from by simp] at hrec
      obtain ⟨hv, hp⟩ := hrec
      cases hEe : evalE e with
      | none =>
          rw [hEe] at hv
          rcases hq : evaluate_expression (pre ++ ('(' :: (renderE e ++ [')'])) ++ post)
            (pre.length + 1) with ⟨vv, pp⟩
          rw [hq] at hv
          simp only at hv
          subst hv
          constructor
          · simp [evalF, hEe]
          · intro hcon
            exfalso
            apply hcon
            simp [evalF, hEe]
      | some v =>
          rw [hEe] at hv hp
          have hp2 := hp (by simp)
          rcases hq : evaluate_expression (pre ++ ('(' :: (renderE e ++ [')'])) ++ post)
            (pre.length + 1) with ⟨vv, pp⟩
          rw [hq] at hv hp2
          simp only at hv hp2
          subst hv
          constructor
          · simp [evalF, hEe]
          · intro _
            show ((some (v * 1) : Option Int), pp + 1).2
              = pre.length + ('(' :: (renderE e ++ [')'])).length
            simp only [List.length_cons, List.length_append, List.length_nil]
            omega
  | true =>
      have hrf : renderF (Factor.paren true e) = '-' :: ('(' :: (renderE e ++ [')'])) := by
        simp [renderF]
      rw [hrf]
      have hcm : charAt (pre ++ ('-' :: ('(' :: (renderE e ++ [')']))) ++ post) pre.length = '-' :=
        charAt_append_cons pre '-' ('(' :: (renderE e ++ [')'])) post
      rw [get_natural_eq]
      simp only [if_pos hcm]
      have hS1 : pre ++ ('-' :: ('(' :: (renderE e ++ [')']))) ++ post
          = (pre ++ ['-']) ++ ('(' :: (renderE e ++ [')'])) ++ post := by simp
      have hcp : charAt (pre ++ ('-' :: ('(' :: (renderE e ++ [')']))) ++ post)
          (pre.length + 1) = '(' := by
        rw [hS1, show pre.length + 1 = (pre ++ ['-']).length from by simp]
        exact charAt_append_cons (pre ++ ['-']) '(' (renderE e ++ [')']) post
      simp only [if_pos hcp]
      have hS : pre ++ ('-' :: ('(' :: (renderE e ++ [')']))) ++ post
          = (pre ++ ['-', '(']) ++ renderE e ++ (')' :: post) := by simp
      have hrec := ih (pre ++ ['-', '(']) (')' :: post) hwf hstopE
      rw [← hS, show (pre ++ ['-', '(']).length = pre.length + 1 + 1 from by simp] at hrec
      obtain ⟨hv, hp⟩ := hrec
      cases hEe : evalE e with
      | none =>
          rw [hEe] at hv
          rcases hq : evaluate_expression (pre ++ ('-' :: ('(' :: (renderE e ++ [')']))) ++ post)
            (pre.length + 1 + 1) with ⟨vv, pp⟩
          rw [hq] at hv
          simp only at hv
          subst hv
          constructor
          · simp [evalF, hEe]
          · intro hcon
            exfalso
            apply hcon
            simp [evalF, hEe]
      | some v =>
          rw [hEe] at hv hp
          have hp2 := hp (by simp)
          rcases hq : evaluate_expression (pre ++ ('-' :: ('(' :: (renderE e ++ [')']))) ++ post)
            (pre.length + 1 + 1) with ⟨vv, pp⟩
          rw [hq] at hv hp2
          simp only at hv hp2
          subst hv
          constructor
          · simp [evalF, hEe]
          · intro _
            show ((some (v * -1) : Option Int), pp + 1).2
              = pre.length + ('-' :: ('(' :: (renderE e ++ [')']))).length
            simp only [List.length_cons, List.length_append, List.length_nil]
            omega

theorem termTailOK_nil : TermTailOK .tnil := by
  intro pre post acc hwf hstop
  have hrt : renderTT TermTail.tnil = [] := by simp [renderTT]
  rw [hrt, List.append_nil]
  obtain ⟨hd0, hs1, hs2⟩ := hstop
  have hcc : charAt (pre ++ post) pre.length = charAt post 0 := charAt_append_zero pre post
  have hne : ¬(charAt (pre ++ post) pre.length = '*' ∨ charAt (pre ++ post) pre.length = '/') := by
    rw [hcc]
    rintro (h | h)
    · exact hs1 h
    · exact hs2 h
  rw [evaluate_term_loop_eq, if_neg hne]
  constructor
  · simp [evalTT]
  · intro _
    simp

theorem termTailOK_cons (isMul : Bool) (f : Factor) (rest : TermTail)
    (ihf : FactOK f) (ihr : TermTailOK rest) : TermTailOK (.tcons isMul f rest) := by
  intro pre post acc hwf hstop
  simp only [wfTT, Bool.and_eq_true] at hwf
  have hstopF : stops_factor (renderTT rest ++ post) := stops_factor_renderTT rest post hstop.1
  cases isMul with
  | true =>
      have hrt : renderTT (TermTail.tcons true f rest) = '*' :: (renderF f ++ renderTT rest) := by
        simp [renderTT]
      rw [hrt]
      have hcop : charAt (pre ++ ('*' :: (renderF f ++ renderTT rest)) ++ post) pre.length = '*' :=
        charAt_append_cons pre '*' (renderF f ++ renderTT rest) post
      rw [evaluate_term_loop_eq]
      rw [if_pos (Or.inl hcop), if_pos hcop]
      have hSf : pre ++ ('*' :: (renderF f ++ renderTT rest)) ++ post
          = (pre ++ ['*']) ++ renderF f ++ (renderTT rest ++ post) := by simp
      have hrecF := ihf (pre ++ ['*']) (renderTT rest ++ post) hwf.1 hstopF
      rw [← hSf, show (pre ++ ['*']).length = pre.length + 1 from by simp] at hrecF
      obtain ⟨hFv, hFp⟩ := hrecF
      cases hfe : evalF f with
      | none =>
          rw [hfe] at hFv
          rcases hq : get_natural (pre ++ ('*' :: (renderF f ++ renderTT rest)) ++ post)
            (pre.length + 1) with ⟨vv, pp⟩
          rw [hq] at hFv
          simp only at hFv
          subst hFv
          constructor
          · simp [evalTT, hfe]
          · intro hcon
            exfalso
            apply hcon
            simp [evalTT, hfe]
      | some b =>
          rw [hfe] at hFv hFp
          have hFp2 := hFp (by simp)
          rcases hq : get_natural (pre ++ ('*' :: (renderF f ++ renderTT rest)) ++ post)
            (pre.length + 1) with ⟨vv, pp⟩
          rw [hq] at hFv hFp2
          simp only at hFv hFp2
          subst hFv
          have hpp : pp = (pre ++ ('*' :: renderF f)).length := by
            simp only [List.length_append, List.length_cons]
            omega
          have hStl : pre ++ ('*' :: (renderF f ++ renderTT rest)) ++ post
              = (pre ++ ('*' :: renderF f)) ++ renderTT rest ++ post := by simp
          have hrecL := ihr (pre ++ ('*' :: renderF f)) post (acc * b) hwf.2 hstop
          rw [← hStl, ← hpp] at hrecL
          obtain ⟨hLv, hLp⟩ := hrecL
          constructor
          · show (evaluate_term_loop (pre ++ ('*' :: (renderF f ++ renderTT rest)) ++ post)
              (acc * b) pp).1 = _
            rw [hLv]
            simp [evalTT, hfe]
          · intro hnn
            have hnn2 : evalTT (acc * b) rest ≠ none := by
              simpa [evalTT, hfe] using hnn
            show (evaluate_term_loop (pre ++ ('*' :: (renderF f ++ renderTT rest)) ++ post)
              (acc * b) pp).2 = _
            rw [hLp hnn2, hpp]
            simp only [List.length_append, List.length_cons]
            omega
  | false =>
      have hrt : renderTT (TermTail.tcons false f rest) = '/' :: (renderF f ++ renderTT rest) := by
        simp [renderTT]
      rw [hrt]
      have hcop : charAt (pre ++ ('/' :: (renderF f ++ renderTT rest)) ++ post) pre.length = '/' :=
        charAt_append_cons pre '/' (renderF f ++ renderTT rest) post
      have hne1 : ¬(charAt (pre ++ ('/' :: (renderF f ++ renderTT rest)) ++ post) pre.length = '*') := by
        rw [hcop]; decide
      rw [evaluate_term_loop_eq]
      rw [if_pos (Or.inr hcop), if_neg hne1, if_pos hcop]
      have hSf : pre ++ ('/' :: (renderF f ++ renderTT rest)) ++ post
          = (pre ++ ['/']) ++ renderF f ++ (renderTT rest ++ post) := by simp
      have hrecF := ihf (pre ++ ['/']) (renderTT rest ++ post) hwf.1 hstopF
      rw [← hSf, show (pre ++ ['/']).length = pre.length + 1 from by simp] at hrecF
      obtain ⟨hFv, hFp⟩ := hrecF
      cases hfe : evalF f with
      | none =>
          rw [hfe] at hFv
          rcases hq : get_natural (pre ++ ('/' :: (renderF f ++ renderTT rest)) ++ post)
            (pre.length + 1) with ⟨vv, pp⟩
          rw [hq] at hFv
          simp only at hFv
          subst hFv
          constructor
          · simp [evalTT, hfe]
          · intro hcon
            exfalso
            apply hcon
            simp [evalTT, hfe]
      | some b =>
          rw [hfe] at hFv hFp
          have hFp2 := hFp (by simp)
          rcases hq : get_natural (pre ++ ('/' :: (renderF f ++ renderTT rest)) ++ post)
            (pre.length + 1) with ⟨vv, pp⟩
          rw [hq] at hFv hFp2
          simp only at hFv hFp2
          subst hFv
          by_cases hb0 : b = 0
          · have hdv : div_step acc b = none := by simp [div_step, hb0]
            constructor
            · show (match div_step acc b with
                    | none => ((none : Option Int), pp)
                    | some r =>
                        evaluate_term_loop (pre ++ ('/' :: (renderF f ++ renderTT rest)) ++ post)
                          r pp).1 = _
              rw [hdv]
              simp [evalTT, hfe, hb0]
            · intro hcon
              exfalso
              apply hcon
              simp [evalTT, hfe, hb0]
          · have hdv : div_step acc b = some (Int.tdiv acc b) := by simp [div_step, hb0]
            have hpp : pp = (pre ++ ('/' :: renderF f)).length := by
              simp only [List.length_append, List.length_cons]
              omega
            have hStl : pre ++ ('/' :: (renderF f ++ renderTT rest)) ++ post
                = (pre ++ ('/' :: renderF f)) ++ renderTT rest ++ post := by simp
            have hrecL := ihr (pre ++ ('/' :: renderF f)) post (Int.tdiv acc b) hwf.2 hstop
            rw [← hStl, ← hpp] at hrecL
            obtain ⟨hLv, hLp⟩ := hrecL
            constructor
            · show (match div_step acc b with
                    | none => ((none : Option Int), pp)
                    | some r =>
                        evaluate_term_loop (pre ++ ('/' :: (renderF f ++ renderTT rest)) ++ post)
                          r pp).1 = _
              rw [hdv]
              show (evaluate_term_loop (pre ++ ('/' :: (renderF f ++ renderTT rest)) ++ post)
                (Int.tdiv acc b) pp).1 = _
              rw [hLv]
              simp [evalTT, hfe, hb0]
            · intro hnn
              have hnn2 : evalTT (Int.tdiv acc b) rest ≠ none := by
                simpa [evalTT, hfe, hb0] using hnn
              show (match div_step acc b with
                    | none => ((none : Option Int), pp)
                    | some r =>
                        evaluate_term_loop (pre ++ ('/' :: (renderF f ++ renderTT rest)) ++ post)
                          r pp).2 = _
              rw [hdv]
              show (evaluate_term_loop (pre ++ ('/' :: (renderF f ++ renderTT rest)) ++ post)
                (Int.tdiv acc b) pp).2 = _
              rw [hLp hnn2, hpp]
              simp only [List.length_append, List.length_cons]
              omega

theorem termOK_mk (h : Factor) (t : TermTail) (ihf : FactOK h) (iht : TermTailOK t) :
    TermOK (.mk h t) := by
  intro pre post hwf hstop
  simp only [wfT, Bool.and_eq_true] at hwf
  have hstopF : stops_factor (renderTT t ++ post) := stops_factor_renderTT t post hstop.1
  have hrt : renderT (Termn.mk h t) = renderF h ++ renderTT t := by simp [renderT]
  rw [hrt]
  rw [evaluate_term_eq]
  have hSf : pre ++ (renderF h ++ renderTT t) ++ post
      = pre ++ renderF h ++ (renderTT t ++ post) := by simp
  have hrecF := ihf pre (renderTT t ++ post) hwf.1 hstopF
  rw [← hSf] at hrecF
  obtain ⟨hFv, hFp⟩ := hrecF
  cases hfe : evalF h with
  | none =>
      rw [hfe] at hFv
      rcases hq : get_natural (pre ++ (renderF h ++ renderTT t) ++ post) pre.length with ⟨vv, pp⟩
      rw [hq] at hFv
      simp only at hFv
      subst hFv
      constructor
      · simp [evalT, hfe]
      · intro hcon
        exfalso
        apply hcon
        simp [evalT, hfe]
  | some v =>
      rw [hfe] at hFv hFp
      have hFp2 := hFp (by simp)
      rcases hq : get_natural (pre ++ (renderF h ++ renderTT t) ++ post) pre.length with ⟨vv, pp⟩
      rw [hq] at hFv hFp2
      simp only at hFv hFp2
      subst hFv
      have hpp : pp = (pre ++ renderF h).length := by
        simp only [List.length_append]
        omega
      have hStl : pre ++ (renderF h ++ renderTT t) ++ post
          = (pre ++ renderF h) ++ renderTT t ++ post := by simp
      have hrecL := iht (pre ++ renderF h) post v hwf.2 hstop
      rw [← hStl, ← hpp] at hrecL
      obtain ⟨hLv, hLp⟩ := hrecL
      constructor
      · show (evaluate_term_loop (pre ++ (renderF h ++ renderTT t) ++ post) v pp).1 = _
        rw [hLv]
        simp [evalT, hfe]
      · intro hnn
        have hnn2 : evalTT v t ≠ none := by
          simpa [evalT, hfe] using hnn
        show (evaluate_term_loop (pre ++ (renderF h ++ renderTT t) ++ post) v pp).2 = _
        rw [hLp hnn2, hpp]
        simp only [List.length_append]
        omega

theorem exprTailOK_nil : ExprTailOK .enil := by
  intro pre post acc hwf hstop
  have hrt : renderET ExprTail.enil = [] := by simp [renderET]
  rw [hrt, List.append_nil]
  obtain ⟨ht0, hs1, hs2⟩ := hstop
  have hcc : charAt (pre ++ post) pre.length = charAt post 0 := charAt_append_zero pre post
  have hne : ¬(charAt (pre ++ post) pre.length = '+' ∨ charAt (pre ++ post) pre.length = '-') := by
    rw [hcc]
    rintro (h | h)
    · exact hs1 h
    · exact hs2 h
  rw [evaluate_expression_loop_eq, if_neg hne]
  constructor
  · simp [evalET]
  · intro _
    simp

theorem exprTailOK_cons (isAdd : Bool) (t : Termn) (rest : ExprTail)
    (iht : TermOK t) (ihr : ExprTailOK rest) : ExprTailOK (.econs isAdd t rest) := by
  intro pre post acc hwf hstop
  simp only [wfET, Bool.and_eq_true] at hwf
  have hstopT : stops_term (renderET rest ++ post) := stops_term_renderET rest post hstop.1
  cases isAdd with
  | true =>
      have hrt : renderET (ExprTail.econs true t rest) = '+' :: (renderT t ++ renderET rest) := by
        simp [renderET]
      rw [hrt]
      have hcop : charAt (pre ++ ('+' :: (renderT t ++ renderET rest)) ++ post) pre.length = '+' :=
        charAt_append_cons pre '+' (renderT t ++ renderET rest) post
      rw [evaluate_expression_loop_eq]
      rw [if_pos (Or.inl hcop), if_pos hcop]
      have hSf : pre ++ ('+' :: (renderT t ++ renderET rest)) ++ post
          = (pre ++ ['+']) ++ renderT t ++ (renderET rest ++ post) := by simp
      have hrecT := iht (pre ++ ['+']) (renderET rest ++ post) hwf.1 hstopT
      rw [← hSf, show (pre ++ ['+']).length = pre.length + 1 from by simp] at hrecT
      obtain ⟨hFv, hFp⟩ := hrecT
      cases hfe : evalT t with
      | none =>
          rw [hfe] at hFv
          rcases hq : evaluate_term (pre ++ ('+' :: (renderT t ++ renderET rest)) ++ post)
            (pre.length + 1) with ⟨vv, pp⟩
          rw [hq] at hFv
          simp only at hFv
          subst hFv
          constructor
          · simp [evalET, hfe]
          · intro hcon
            exfalso
            apply hcon
            simp [evalET, hfe]
      | some b =>
          rw [hfe] at hFv hFp
          have hFp2 := hFp (by simp)
          rcases hq : evaluate_term (pre ++ ('+' :: (renderT t ++ renderET rest)) ++ post)
            (pre.length + 1) with ⟨vv, pp⟩
          rw [hq] at hFv hFp2
          simp only at hFv hFp2
          subst hFv
          have hpp : pp = (pre ++ ('+' :: renderT t)).length := by
            simp only [List.length_append, List.length_cons]
            omega
          have hStl : pre ++ ('+' :: (renderT t ++ renderET rest)) ++ post
              = (pre ++ ('+' :: renderT t)) ++ renderET rest ++ post := by simp
          have hrecL := ihr (pre ++ ('+' :: renderT t)) post (acc + b) hwf.2 hstop
          rw [← hStl, ← hpp] at hrecL
          obtain ⟨hLv, hLp⟩ := hrecL
          constructor
          · show (evaluate_expression_loop (pre ++ ('+' :: (renderT t ++ renderET rest)) ++ post)
              (acc + b) pp).1 = _
            rw [hLv]
            simp [evalET, hfe]
          · intro hnn
            have hnn2 : evalET (acc + b) rest ≠ none := by
              simpa [evalET, hfe] using hnn
            show (evaluate_expression_loop (pre ++ ('+' :: (renderT t ++ renderET rest)) ++ post)
              (acc + b) pp).2 = _
            rw [hLp hnn2, hpp]
            simp only [List.length_append, List.length_cons]
            omega
  | false =>
      have hrt : renderET (ExprTail.econs false t rest) = '-' :: (renderT t ++ renderET rest) := by
        simp [renderET]
      rw [hrt]
      have hcop : charAt (pre ++ ('-' :: (renderT t ++ renderET rest)) ++ post) pre.length = '-' :=
        charAt_append_cons pre '-' (renderT t ++ renderET rest) post
      have hne1 : ¬(charAt (pre ++ ('-' :: (renderT t ++ renderET rest)) ++ post) pre.length = '+') := by
        rw [hcop]; decide
      rw [evaluate_expression_loop_eq]
      rw [if_pos (Or.inr hcop), if_neg hne1, if_pos hcop]
      have hSf : pre ++ ('-' :: (renderT t ++ renderET rest)) ++ post
          = (pre ++ ['-']) ++ renderT t ++ (renderET rest ++ post) := by simp
      have hrecT := iht (pre ++ ['-']) (renderET rest ++ post) hwf.1 hstopT
      rw [← hSf, show (pre ++ ['-']).length = pre.length + 1 from by simp] at hrecT
      obtain ⟨hFv, hFp⟩ := hrecT
      cases hfe : evalT t with
      | none =>
          rw [hfe] at hFv
          rcases hq : evaluate_term (pre ++ ('-' :: (renderT t ++ renderET rest)) ++ post)
            (pre.length + 1) with ⟨vv, pp⟩
          rw [hq] at hFv
          simp only at hFv
          subst hFv
          constructor
          · simp [evalET, hfe]
          · intro hcon
            exfalso
            apply hcon
            simp [evalET, hfe]
      | some b =>
          rw [hfe] at hFv hFp
          have hFp2 := hFp (by simp)
          rcases hq : evaluate_term (pre ++ ('-' :: (renderT t ++ renderET rest)) ++ post)
            (pre.length + 1) with ⟨vv, pp⟩
          rw [hq] at hFv hFp2
          simp only at hFv hFp2
          subst hFv
          have hpp : pp = (pre ++ ('-' :: renderT t)).length := by
            simp only [List.length_append, List.length_cons]
            omega
          have hStl : pre ++ ('-' :: (renderT t ++ renderET rest)) ++ post
              = (pre ++ ('-' :: renderT t)) ++ renderET rest ++ post := by simp
          have hrecL := ihr (pre ++ ('-' :: renderT t)) post (acc - b) hwf.2 hstop
          rw [← hStl, ← hpp] at hrecL
          obtain ⟨hLv, hLp⟩ := hrecL
          constructor
          · show (evaluate_expression_loop (pre ++ ('-' :: (renderT t ++ renderET rest)) ++ post)
              (acc - b) pp).1 = _
            rw [hLv]
            simp [evalET, hfe]
          · intro hnn
            have hnn2 : evalET (acc - b) rest ≠ none := by
              simpa [evalET, hfe] using hnn
            show (evaluate_expression_loop (pre ++ ('-' :: (renderT t ++ renderET rest)) ++ post)
              (acc - b) pp).2 = _
            rw [hLp hnn2, hpp]
            simp only [List.length_append, List.length_cons]
            omega

theorem exprOK_mk (h : Termn) (t : ExprTail) (iht : TermOK h) (ihe : ExprTailOK t) :
    ExprOK (.mk h t) := by
  intro pre post hwf hstop
  simp only [wfE, Bool.and_eq_true] at hwf
  have hstopT : stops_term (renderET t ++ post) := stops_term_renderET t post hstop.1
  have hrt : renderE (Exprn.mk h t) = renderT h ++ renderET t := by simp [renderE]
  rw [hrt]
  rw [evaluate_expression_eq]
  have hSf : pre ++ (renderT h ++ renderET t) ++ post
      = pre ++ renderT h ++ (renderET t ++ post) := by simp
  have hrecT := iht pre (renderET t ++ post) hwf.1 hstopT
  rw [← hSf] at hrecT
  obtain ⟨hFv, hFp⟩ := hrecT
  cases hfe : evalT h with
  | none =>
      rw [hfe] at hFv
      rcases hq : evaluate_term (pre ++ (renderT h ++ renderET t) ++ post) pre.length with ⟨vv, pp⟩
      rw [hq] at hFv
      simp only at hFv
      subst hFv
      constructor
      · simp [evalE, hfe]
      · intro hcon
        exfalso
        apply hcon
        simp [evalE, hfe]
  | some v =>
      rw [hfe] at hFv hFp
      have hFp2 := hFp (by simp)
      rcases hq : evaluate_term (pre ++ (renderT h ++ renderET t) ++ post) pre.length with ⟨vv, pp⟩
      rw [hq] at hFv hFp2
      simp only at hFv hFp2
      subst hFv
      have hpp : pp = (pre ++ renderT h).length := by
        simp only [List.length_append]
        omega
      have hStl : pre ++ (renderT h ++ renderET t) ++ post
          = (pre ++ renderT h) ++ renderET t ++ post := by simp
      have hrecL := ihe (pre ++ renderT h) post v hwf.2 hstop
      rw [← hStl, ← hpp] at hrecL
      obtain ⟨hLv, hLp⟩ := hrecL
      constructor
      · show (evaluate_expression_loop (pre ++ (renderT h ++ renderET t) ++ post) v pp).1 = _
        rw [hLv]
        simp [evalE, hfe]
      · intro hnn
        have hnn2 : evalET v t ≠ none := by
          simpa [evalE, hfe] using hnn
        show (evaluate_expression_loop (pre ++ (renderT h ++ renderET t) ++ post) v pp).2 = _
        rw [hLp hnn2, hpp]
        simp only [List.length_append]
        omega

mutual

theorem factOK : ∀ f : Factor, FactOK f
  | .num sign ds => factOK_num sign ds
  | .paren sign e => factOK_paren sign e (exprOK e)

theorem termTailOK : ∀ t : TermTail, TermTailOK t
  | .tnil => termTailOK_nil
  | .tcons b f r => termTailOK_cons b f r (factOK f) (termTailOK r)

theorem termOK : ∀ t : Termn, TermOK t
  | .mk h t => termOK_mk h t (factOK h) (termTailOK t)

theorem exprTailOK : ∀ t : ExprTail, ExprTailOK t
  | .enil => exprTailOK_nil
  | .econs b t r => exprTailOK_cons b t r (termOK t) (exprTailOK r)

theorem exprOK : ∀ e : Exprn, ExprOK e
  | .mk h t => exprOK_mk h t (termOK h) (exprTailOK t)

end

/- ### Rendered trees pass the character validator -/

mutual

theorem renderF_valid : ∀ f : Factor, wfF f = true → (renderF f).all is_right_char = true
  | .num sign ds, hwf => by
      simp only [wfF, Bool.and_eq_true] at hwf
      have hall := List.all_eq_true.mp hwf.2
      simp only [renderF, List.all_append, Bool.and_eq_true]
      constructor
      · cases sign <;> decide
      · apply List.all_eq_true.mpr
        intro c hc
        have hd := hall c hc
        simp [is_right_char, hd]
  | .paren sign e, hwf => by
      simp only [wfF] at hwf
      have hE := renderE_valid e hwf
      have hlp : is_right_char '(' = true := by decide
      have hrp : is_right_char ')' = true := by decide
      have hmn : is_right_char '-' = true := by decide
      cases sign <;>
        simp [renderF, List.all_append, List.all_cons, hE, hlp, hrp, hmn]

theorem renderTT_valid : ∀ t : TermTail, wfTT t = true → (renderTT t).all is_right_char = true
  | .tnil, _ => by simp [renderTT]
  | .tcons b f r, hwf => by
      simp only [wfTT, Bool.and_eq_true] at hwf
      have hF := renderF_valid f hwf.1
      have hR := renderTT_valid r hwf.2
      have hm : is_right_char '*' = true := by decide
      have hd : is_right_char '/' = true := by decide
      cases b <;>
        simp [renderTT, List.all_append, List.all_cons, hF, hR, hm, hd]

theorem renderT_valid : ∀ t : Termn, wfT t = true → (renderT t).all is_right_char = true
  | .mk h t, hwf => by
      simp only [wfT, Bool.and_eq_true] at hwf
      have hF := renderF_valid h hwf.1
      have hR := renderTT_valid t hwf.2
      simp [renderT, List.all_append, hF, hR]

theorem renderET_valid : ∀ t : ExprTail, wfET t = true → (renderET t).all is_right_char = true
  | .enil, _ => by simp [renderET]
  | .econs b t r, hwf => by
      simp only [wfET, Bool.and_eq_true] at hwf
      have hT := renderT_valid t hwf.1
      have hR := renderET_valid r hwf.2
      have hp : is_right_char '+' = true := by decide
      have hm : is_right_char '-' = true := by decide
      cases b <;>
        simp [renderET, List.all_append, List.all_cons, hT, hR, hp, hm]

theorem renderE_valid : ∀ e : Exprn, wfE e = true → (renderE e).all is_right_char = true
  | .mk h t, hwf => by
      simp only [wfE, Bool.and_eq_true] at hwf
      have hT := renderT_valid h hwf.1
      have hR := renderET_valid t hwf.2
      simp [renderE, List.all_append, hT, hR]

end

theorem charAt_mem (s : List Char) (i : Nat) (h : i < s.length) : charAt s i ∈ s := by
  simp [charAt, List.getD_eq_getElem?_getD, List.getElem?_eq_getElem h]

/-- A string made only of allowed characters passes the validator. -/
theorem valid_chars_of_all (s : List Char) (h : s.all is_right_char = true) :
    valid_chars s = true := by
  unfold valid_chars
  apply List.all_eq_true.mpr
  intro i hi
  rw [List.mem_range] at hi
  have hlt : i < s.length := by omega
  exact List.all_eq_true.mp h _ (charAt_mem s i hlt)

/-- The empty string stops every grammar level. -/
theorem stops_expr_nil : stops_expr [] := by
  unfold stops_expr stops_term stops_factor
  refine ⟨⟨?_, ?_, ?_⟩, ?_, ?_⟩ <;> decide

/-- calculate on the rendering of any well-formed tree returns the
reference value, or the division-by-zero abort when the reference
semantics aborts. -/
theorem calculate_render (e : Exprn) (hwf : wfE e = true) :
    calculate (renderE e) =
      match evalE e with
      | some v => CalcResult.ok v
      | none => CalcResult.divByZero := by
  unfold calculate
  rw [if_pos (valid_chars_of_all _ (renderE_valid e hwf))]
  have h := exprOK e [] [] hwf stops_expr_nil
  simp only [List.nil_append, List.append_nil, List.length_nil] at h
  obtain ⟨hv, _⟩ := h
  rw [hv]

/-- C integer division (Int.tdiv) is exactly truncation toward zero: the
quotient of the absolute values, with the product of the signs. -/
theorem tdiv_formula (a b : Int) :
    Int.tdiv a b = Int.sign a * Int.sign b * ((a.natAbs / b.natAbs : Nat) : Int) := by
  rcases a with m | m <;> rcases b with n | n
  · cases m <;> cases n <;>
      simp [Int.tdiv, Int.sign, Int.natAbs, Nat.succ_eq_add_one, Nat.zero_div, Nat.div_zero]
  · cases m <;>
      simp [Int.tdiv, Int.sign, Int.natAbs]
  · cases n <;>
      simp [Int.tdiv, Int.sign, Int.natAbs, Nat.div_zero]
  · simp [Int.tdiv, Int.sign, Int.natAbs]

/- ### The claims -/

/-- Example tree rendering to the string 2/2, used by the C1 witness. -/
def c1exp : Exprn :=
  Exprn.mk (Termn.mk (Factor.num false ['2'])
    (TermTail.tcons false (Factor.num false ['2']) TermTail.tnil)) ExprTail.enil

/-- C1: for every well-formed expression string (a rendering of the
reference grammar, with balanced parentheses, every factor starting with a
digit, a minus or a left parenthesis, and no division whose right operand
is 0), calculate returns the integer given by standard left-to-right
precedence-respecting arithmetic; in particular the five concrete cases of
the spec. -/
theorem spec_c1 :
    (∀ (e : Exprn) (v : Int), wfE e = true → evalE e = some v →
        calculate (renderE e) = CalcResult.ok v) ∧
    calculate ('2' :: '/' :: '2' :: []) = CalcResult.ok 1 ∧
    calculate ('4' :: '*' :: '4' :: '-' :: '3' :: '*' :: '2' :: []) = CalcResult.ok 10 ∧
    calculate ('0' :: '*' :: '4' :: '-' :: '3' :: '*' :: '2' :: '+' :: '1' :: [])
      = CalcResult.ok (-5) ∧
    calculate ('(' :: '1' :: '+' :: '3' :: '*' :: '(' :: '-' :: '4' :: ')' :: ')' :: '/' :: '2' :: [])
      = CalcResult.ok (-5) ∧
    calculate ('1' :: '+' :: '2' :: '/' :: '(' :: '1' :: '*' :: '3' :: ')' :: '-' :: '2' :: [])
      = CalcResult.ok (-1) := by
  refine ⟨?_, by decide, by decide, by decide, by decide, by decide⟩
  intro e v hwf hev
  rw [calculate_render e hwf, hev]

/-- Witness for C1, applying it to the tree rendering to 2/2. -/
theorem spec_c1_witness :
    wfE c1exp = true ∧ evalE c1exp = some 1 ∧ calculate (renderE c1exp) = CalcResult.ok 1 :=
  ⟨by decide, by decide, spec_c1.1 c1exp 1 (by decide) (by decide)⟩

/-- C2 fails as stated: the validator loop stops one character early
(for i < strlen - 1), so an invalid character in the last position is
never checked; here the input 1a returns the number 1 instead of an
invalid-character failure. -/
theorem spec_c2_counterexample :
    is_right_char 'a' = false ∧ calculate ('1' :: 'a' :: []) = CalcResult.ok 1 :=
  ⟨by decide, by decide⟩

/-- C2 (amended): an invalid character at any position except the last one
makes calculate report the invalid-character failure and stop before
parsing; the final character is never validated. -/
theorem spec_c2 :
    ∀ (s : List Char) (i : Nat), i + 1 < s.length → is_right_char (charAt s i) = false →
      calculate s = CalcResult.invalidChar := by
  intro s i hi hbad
  unfold calculate
  have hval : ¬(valid_chars s = true) := by
    intro hv
    unfold valid_chars at hv
    have h2 := List.all_eq_true.mp hv i (List.mem_range.mpr (by omega))
    simp only at h2
    rw [hbad] at h2
    exact Bool.false_ne_true h2
  rw [if_neg hval]

/-- Witness for the amended C2 at the input a1 with the bad character at
position 0. -/
theorem spec_c2_witness :
    0 + 1 < ('a' :: '1' :: []).length ∧
      is_right_char (charAt ('a' :: '1' :: []) 0) = false ∧
      calculate ('a' :: '1' :: []) = CalcResult.invalidChar :=
  ⟨by decide, by decide, spec_c2 ('a' :: '1' :: []) 0 (by decide) (by decide)⟩

/-- Example tree rendering to the string 1/0, used by the C3 witness. -/
def c3exp : Exprn :=
  Exprn.mk (Termn.mk (Factor.num false ['1'])
    (TermTail.tcons false (Factor.num false ['0']) TermTail.tnil)) ExprTail.enil

/-- C3: whenever the right operand of a division evaluates to 0 anywhere
in a well-formed expression, evaluation stops there and calculate never
returns a numeric value; in particular for 1/0 and (1+1)/(1-1). -/
theorem spec_c3 :
    (∀ e : Exprn, wfE e = true → evalE e = none →
        calculate (renderE e) = CalcResult.divByZero) ∧
    calculate ('1' :: '/' :: '0' :: []) = CalcResult.divByZero ∧
    calculate ('(' :: '1' :: '+' :: '1' :: ')' :: '/' :: '(' :: '1' :: '-' :: '1' :: ')' :: [])
      = CalcResult.divByZero := by
  refine ⟨?_, by decide, by decide⟩
  intro e hwf hev
  rw [calculate_render e hwf, hev]

/-- Witness for C3, applying it to the tree rendering to 1/0. -/
theorem spec_c3_witness :
    wfE c3exp = true ∧ evalE c3exp = none ∧ calculate (renderE c3exp) = CalcResult.divByZero :=
  ⟨by decide, by decide, spec_c3.1 c3exp (by decide) (by decide)⟩

/-- C4: when the current character is neither a minus, a left parenthesis
nor a digit, the factor parser returns 0 with the cursor unchanged, and no
error is reported. -/
theorem spec_c4 :
    ∀ (s : List Char) (pos : Nat), charAt s pos ≠ '-' → charAt s pos ≠ '(' →
      (charAt s pos).isDigit = false → get_natural s pos = (some 0, pos) := by
  intro s pos hm hp hd
  rw [get_natural_eq]
  simp only [if_neg hm, if_neg hp]
  rw [read_digits_eq]
  rw [if_neg (by rw [hd]; exact Bool.false_ne_true)]
  simp

/-- Witness for C4 at the input xf with the cursor at 0. -/
theorem spec_c4_witness :
    charAt ('x' :: 'f' :: []) 0 ≠ '-' ∧ charAt ('x' :: 'f' :: []) 0 ≠ '(' ∧
      (charAt ('x' :: 'f' :: []) 0).isDigit = false ∧
      get_natural ('x' :: 'f' :: []) 0 = (some 0, 0) :=
  ⟨by decide, by decide, by decide,
    spec_c4 ('x' :: 'f' :: []) 0 (by decide) (by decide) (by decide)⟩

/-- C5: the division step of evaluate_term truncates toward zero for a
nonzero divisor (sign of the product of the signs, quotient of the
absolute values); in particular 7/2 evaluates to 3 and -7/2 to -3. -/
theorem spec_c5 :
    (∀ a b : Int, b ≠ 0 →
        div_step a b
          = some (Int.sign a * Int.sign b * ((a.natAbs / b.natAbs : Nat) : Int))) ∧
    calculate ('7' :: '/' :: '2' :: []) = CalcResult.ok 3 ∧
    calculate ('-' :: '7' :: '/' :: '2' :: []) = CalcResult.ok (-3) := by
  refine ⟨?_, by decide, by decide⟩
  intro a b hb
  unfold div_step
  rw [if_neg hb, tdiv_formula]

/-- Witness for C5 at the operands -7 and 2. -/
theorem spec_c5_witness :
    ((2 : Int) ≠ 0) ∧
      div_step (-7) 2
        = some (Int.sign (-7) * Int.sign 2 * (((-7 : Int).natAbs / (2 : Int).natAbs : Nat) : Int)) :=
  ⟨by decide, spec_c5.1 (-7) 2 (by decide)⟩

/-- C6: on a left parenthesis the factor parser advances past it,
recursively evaluates an expression, and then consumes exactly one
character unconditionally (the final cursor is the recursive cursor plus
one, with no check that the consumed character is a right parenthesis); a
missing closing parenthesis is tolerated, never an error: (1 yields 1. -/
theorem spec_c6 :
    (∀ (s : List Char) (pos : Nat), charAt s pos = '(' →
        get_natural s pos =
          match evaluate_expression s (pos + 1) with
          | (none, p) => (none, p)
          | (some v, p) => (some v, p + 1)) ∧
    calculate ('(' :: '1' :: []) = CalcResult.ok 1 := by
  refine ⟨?_, by decide⟩
  intro s pos hp
  rw [get_natural_eq]
  have hm : ¬(charAt s pos = '-') := by rw [hp]; decide
  simp only [if_neg hm, if_pos hp]
  rcases hE : evaluate_expression s (pos + 1) with ⟨_ | v, p⟩
  · rfl
  · simp

/-- Witness for C6 at the unterminated input (1. -/
theorem spec_c6_witness :
    charAt ('(' :: '1' :: []) 0 = '(' ∧
      get_natural ('(' :: '1' :: []) 0 =
        match evaluate_expression ('(' :: '1' :: []) 1 with
        | (none, p) => (none, p)
        | (some v, p) => (some v, p + 1) :=
  ⟨by decide, spec_c6.1 ('(' :: '1' :: []) 0 (by decide)⟩

/-- C7 fails as stated: on the input (1 (length 2) the unconditional
consume of the absent right parenthesis moves the cursor to 3, past the
end of the text. -/
theorem spec_c7_counterexample :
    ('(' :: '1' :: []).length = 2 ∧ (evaluate_expression ('(' :: '1' :: []) 0).2 = 3 :=
  ⟨by decide, by decide⟩

/-- C7 (amended): the cursor starts at 0, is a natural number (never
negative) and never moves backwards at any grammar level, but it can move
past the end of the text when an unmatched left parenthesis makes the
parser consume the absent closing parenthesis. -/
theorem spec_c7 :
    ∀ (s : List Char) (pos : Nat) (a : Int),
      pos ≤ (read_digits s a pos).2 ∧ pos ≤ (get_natural s pos).2 ∧
      pos ≤ (evaluate_term_loop s a pos).2 ∧ pos ≤ (evaluate_term s pos).2 ∧
      pos ≤ (evaluate_expression_loop s a pos).2 ∧ pos ≤ (evaluate_expression s pos).2 :=
  fun s pos a =>
    ⟨read_digits_pos_le s a pos, get_natural_pos_le s pos,
     evaluate_term_loop_pos_le s a pos, evaluate_term_pos_le s pos,
     evaluate_expression_loop_pos_le s a pos, evaluate_expression_pos_le s pos⟩

/-- C8: evaluation of every input terminates with work bounded linearly by
the input length: with any fuel of at least 6 * (length + 1) + 6 steps the
fuelled parsers complete (they never exhaust the fuel) and agree with the
total functions, at every starting cursor. -/
theorem spec_c8 :
    ∀ (s : List Char) (pos fuel : Nat), 6 * (s.length + 1) + 6 ≤ fuel →
      get_naturalF fuel s pos = some (get_natural s pos) ∧
      evaluate_termF fuel s pos = some (evaluate_term s pos) ∧
      evaluate_expressionF fuel s pos = some (evaluate_expression s pos) := by
  intro s pos fuel hf
  refine ⟨?_, ?_, ?_⟩
  · exact get_naturalF_eq_total fuel s pos (by simp only [fuelFor]; omega)
  · exact evaluate_termF_eq_total fuel s pos (by simp only [fuelFor]; omega)
  · exact evaluate_expressionF_eq_total fuel s pos (by simp only [fuelFor]; omega)

/-- Witness for C8 on the input 2/2 with fuel 30. -/
theorem spec_c8_witness :
    6 * (('2' :: '/' :: '2' :: []).length + 1) + 6 ≤ 30 ∧
      (get_naturalF 30 ('2' :: '/' :: '2' :: []) 0
          = some (get_natural ('2' :: '/' :: '2' :: []) 0) ∧
        evaluate_termF 30 ('2' :: '/' :: '2' :: []) 0
          = some (evaluate_term ('2' :: '/' :: '2' :: []) 0) ∧
        evaluate_expressionF 30 ('2' :: '/' :: '2' :: []) 0
          = some (evaluate_expression ('2' :: '/' :: '2' :: []) 0)) :=
  ⟨by decide, spec_c8 ('2' :: '/' :: '2' :: []) 0 30 (by decide)⟩

/-- Example tree rendering to the string 1+2, used for C9. -/
def c9exp : Exprn :=
  Exprn.mk (Termn.mk (Factor.num false ['1']) TermTail.tnil)
    (ExprTail.econs true (Termn.mk (Factor.num false ['2']) TermTail.tnil) ExprTail.enil)

/-- C9 (implicit): when the expression parser stops before the end of the
input at a character that is not a plus or a minus, calculate returns the
value of the parsed prefix and silently ignores the rest; in particular
1+2) followed by any further allowed characters yields 3 with no error. -/
theorem spec_c9 :
    (∀ (s : List Char) (v : Int), valid_chars s = true →
        (evaluate_expression s 0).1 = some v → calculate s = CalcResult.ok v) ∧
    (∀ rest : List Char, rest.all is_right_char = true →
        calculate ('1' :: '+' :: '2' :: ')' :: rest) = CalcResult.ok 3) := by
  constructor
  · intro s v hval hv
    unfold calculate
    rw [if_pos hval, hv]
  · intro rest hrest
    have hstopE : stops_expr (')' :: rest) := by
      unfold stops_expr stops_term stops_factor
      refine ⟨⟨?_, ?_, ?_⟩, ?_, ?_⟩ <;> (rw [charAt_cons_zero]; decide)
    have h := exprOK c9exp [] (')' :: rest) (by decide) hstopE
    simp only [List.nil_append, List.length_nil] at h
    obtain ⟨hv, _⟩ := h
    have hren : renderE c9exp ++ (')' :: rest) = '1' :: '+' :: '2' :: ')' :: rest := by
      show (['1', '+', '2'] : List Char) ++ (')' :: rest) = _
      rfl
    rw [hren] at hv
    have hEval : evalE c9exp = some 3 := by decide
    rw [hEval] at hv
    unfold calculate
    have hvc : valid_chars ('1' :: '+' :: '2' :: ')' :: rest) = true := by
      apply valid_chars_of_all
      simp only [List.all_cons, Bool.and_eq_true]
      exact ⟨by decide, by decide, by decide, by decide, hrest⟩
    rw [if_pos hvc, hv]

/-- Witness for C9 with the empty remainder after 1+2). -/
theorem spec_c9_witness :
    (([] : List Char).all is_right_char = true) ∧
      calculate ('1' :: '+' :: '2' :: ')' :: []) = CalcResult.ok 3 :=
  ⟨rfl, spec_c9.2 [] rfl⟩

/-- C10 (implicit): on the input --3 the factor parser consumes the first
minus and falls back to the value 0 (cursor at 1), the expression parser
treats the second minus as binary subtraction, and calculate returns -3,
not 3. -/
theorem spec_c10 :
    get_natural ('-' :: '-' :: '3' :: []) 0 = (some 0, 1) ∧
    (evaluate_expression ('-' :: '-' :: '3' :: []) 0).1 = some (-3) ∧
    calculate ('-' :: '-' :: '3' :: []) = CalcResult.ok (-3) :=
  ⟨by decide, by decide, by decide⟩
